import Mathlib

/-!
# Verification of the Expo Metro serializer tree-shaking pass

A shallow embedding of `packages/@expo/metro-config/src/serializer/withExpoSerializers.ts`:
the tree-shaking serializer plugin (`collectImportExports`, `detectCommonJsExportsUsage`,
`treeShakeExports`, `removeUnusedImports`, `treeShakeAll`), the serializer chain builder
(`createSerializerFromSerialProcessors`), and the source-map `sources` rewriting of the
static-export branch of `getDefaultSerializer`.

Modelling conventions:

* A Babel AST is embedded as a list of top-level statements (`Stmt`).  The statement kinds
  the source inspects (import declarations, export declarations, `require()` calls,
  `module.exports` / `exports` member expressions, `Object.assign`/`Object.defineProperties`
  calls) are explicit constructors or explicit payload fields; all remaining syntax is
  abstracted into the payloads.  In particular Babel's scope analysis is abstracted: each
  statement carries the list `uses` of identifier names that the source's `Identifier`
  visitor would record for it (true read sites: identifiers that are neither part of
  an import specifier node nor binding identifiers of a local declaration).
* JavaScript `Map`s keyed by strings are association lists in insertion order (iteration
  order of a JS `Map`); JavaScript `Set`s of strings are duplicate-free lists.  The module
  graph maps each absolute path to the module record whose `path` field is that key, so a
  graph is a list of modules keyed by their `path` field.
* JavaScript exceptions (including `TypeError`s from property access on `undefined`, and
  Babel's "you can't remove a removed node" error) are modelled with `Except ShakeErr`.
  A thrown error aborts the whole pass, so intermediate mutations discarded by `Except`
  are unobservable.
* The unbounded recursion of `treeShakeAll` is given explicit fuel; exhausting the fuel
  yields the distinguished error `ShakeErr.fuelOut`, which the real code cannot produce
  (it would simply keep recursing).
-/

set_option maxRecDepth 10000

/-- Decidable equality for `Except`, so that concrete runs of the embedded pass can be
checked with `decide`. -/
instance {ε α : Type} [DecidableEq ε] [DecidableEq α] : DecidableEq (Except ε α) :=
  fun a b =>
    match a, b with
    | .ok x, .ok y =>
        match decEq x y with
        | isTrue h => isTrue (congrArg Except.ok h)
        | isFalse h => isFalse (fun c => h (Except.ok.inj c))
    | .error x, .error y =>
        match decEq x y with
        | isTrue h => isTrue (congrArg Except.error h)
        | isFalse h => isFalse (fun c => h (Except.error.inj c))
    | .ok _, .error _ => isFalse (fun c => Except.noConfusion c)
    | .error _, .ok _ => isFalse (fun c => Except.noConfusion c)

namespace ExpoSerializer

/-- An import specifier node of an `ImportDeclaration`, as in Babel:
`ImportSpecifier` has both an `imported` and a `local` name; `ImportDefaultSpecifier`
and `ImportNamespaceSpecifier` only have a `local` name (their `imported` field is
`undefined`). -/
inductive AstSpec where
  | importSpecifier (imported local_ : String)
  | importDefaultSpecifier (local_ : String)
  | importNamespaceSpecifier (local_ : String)
  deriving DecidableEq, Repr

/-- Babel's `specifier.imported` property: present only on `ImportSpecifier` nodes,
`undefined` (here `none`) on default and namespace specifiers. -/
def AstSpec.imported : AstSpec → Option String
  | .importSpecifier i _ => some i
  | .importDefaultSpecifier _ => none
  | .importNamespaceSpecifier _ => none

/-- Babel's `specifier.local` property. -/
def AstSpec.localName : AstSpec → String
  | .importSpecifier _ l => l
  | .importDefaultSpecifier l => l
  | .importNamespaceSpecifier l => l

/-- The first argument of an `Object.assign` / `Object.defineProperties` call, as far as
`detectCommonJsExportsUsage` inspects it: a member expression (object and property
identifier names), a plain identifier, or anything else. -/
inductive ObjArg where
  | memberExpr (obj prop : String)
  | ident (name : String)
  | otherArg
  deriving DecidableEq, Repr

/-- A variable declarator of an `export const`/`let`/`var` declaration whose `id` is a
plain identifier: the bound name and the identifier names used in its initializer. -/
structure VarDecl where
  name : String
  uses : List String
  deriving DecidableEq, Repr

/-- A top-level statement of a module's AST, covering exactly the node shapes the
serializer's traversals dispatch on.

* `importDecl`: an `ImportDeclaration` with its source string and specifier list.
* `exportDefault`: an `ExportDefaultDeclaration`; `uses` are the identifier read sites in
  the exported expression, and `requireCalls` the string literal arguments of
  `require(...)` calls it contains (the `CallExpression` visitor fires inside export
  declarations too).
* `exportVars`: an `ExportNamedDeclaration` whose declaration is a `VariableDeclaration`
  (declarators with non-identifier patterns are not modelled); `requireCalls` are the
  `require(...)` string arguments contained in the declarator initializers.
* `exportFun`: an `ExportNamedDeclaration` whose declaration is a function or class
  declaration named `name`; `uses` are the identifier read sites in its body and
  `requireCalls` the `require(...)` string arguments it contains.
* `other`: any other statement; it carries the identifier read sites (`uses`), the string
  literal arguments of `require(...)` calls it contains (in traversal order), the
  `(object, property)` identifier pairs of member expressions it contains, and the first
  arguments of `Object.assign` / `Object.defineProperties` calls it contains. -/
inductive Stmt where
  | importDecl (source : String) (specifiers : List AstSpec)
  | exportDefault (uses requireCalls : List String)
  | exportVars (decls : List VarDecl) (requireCalls : List String)
  | exportFun (name : String) (uses requireCalls : List String)
  | other (uses : List String) (requireCalls : List String)
      (memberExprs : List (String × String)) (objectCallArgs : List ObjArg)
  deriving DecidableEq, Repr

/-- A module AST: the list of top-level statements. -/
abbrev Ast := List Stmt

/-- A recorded import specifier, as pushed by `collectImportExports`
(lines 117–123 of the source): `{ type, importedName, localName }` where `importedName`
is the imported name for an `ImportSpecifier` and `null` otherwise. -/
structure SpecRec where
  type : String
  importedName : Option String
  localName : String
  deriving DecidableEq, Repr

/-- A recorded import edge, as pushed by `collectImportExports`:
`{ source, key, specifiers }` for an `ImportDeclaration`, and
`{ source, key, specifiers: [], cjs: true }` for a `require('...')` call. -/
structure ImportRec where
  source : String
  key : String
  specifiers : List SpecRec
  cjs : Bool
  deriving DecidableEq, Repr

/-- The derived usage metadata written onto `outputItem.data.modules`.  The source
initializes `exports: []` and never pushes to it, so `exports` stays empty. -/
structure ModulesInfo where
  imports : List ImportRec
  exports : List String
  deriving DecidableEq, Repr

/-- The `data` record of an output item: `code` is embedded as the AST that
`babylon.parse(outputItem.data.code)` would produce, `ast` is the (initially possibly
absent) parsed/pruned AST, and `modules` is the usage metadata cache. -/
structure OutputData where
  code : Ast
  ast : Option Ast
  modules : Option ModulesInfo
  deriving DecidableEq, Repr

/-- One output item of a module (one per target runtime flavor), with its `type` tag,
e.g. `"js/module"` or `"js/script"`. -/
structure OutputItem where
  type : String
  data : OutputData
  deriving DecidableEq, Repr

/-- The `data` record of a dependency edge; only `name` (the import specifier string) is
consulted by the serializer. -/
structure DepData where
  name : String
  deriving DecidableEq, Repr

/-- A resolved dependency edge: the specifier data and the resolved absolute path. -/
structure Dep where
  data : DepData
  absolutePath : String
  deriving DecidableEq, Repr

/-- A module record of the graph: its absolute path, its `dependencies` map
(local dependency key → resolved edge, in insertion order), its `inverseDependencies`
set (paths of modules that import it), and its output items. -/
structure Module where
  path : String
  dependencies : List (String × Dep)
  inverseDependencies : List String
  output : List OutputItem
  deriving DecidableEq, Repr

/-- The `graph.dependencies` map: absolute path → module, keyed by the module's `path`
field, in JS `Map` iteration (insertion) order. -/
abbrev Graph := List Module

/-- `graph.dependencies.get(p)`. -/
def graphGet (g : Graph) (p : String) : Option Module :=
  g.find? (fun m => m.path = p)

/-- `graph.dependencies.set(m.path, m)` for an existing key: replace the entry in place
(JS `Map.set` keeps the original insertion position). -/
def graphSet : Graph → Module → Graph
  | [], _ => []
  | x :: xs, m => if x.path = m.path then m :: xs else x :: graphSet xs m

/-- `graph.dependencies.delete(p)`. -/
def graphDelete (g : Graph) (p : String) : Graph :=
  g.filter (fun m => m.path != p)

/-- Write the threaded module object back into the map if its key is still present.
This realizes JS object semantics in a pure setting: the map's value for `v.path` and
the local variable `value` are the same mutable object, so every mutation of `value` is
visible through the map exactly while the key is mapped. -/
def graphSync (g : Graph) (v : Module) : Graph :=
  if (graphGet g v.path).isSome then graphSet g v else g

/-- Errors thrown by the pass (all are genuine JavaScript exceptions of the source,
except `fuelOut` which models non-termination of the unbounded recursion). -/
inductive ShakeErr where
  /-- Fuel exhausted: stands for `treeShakeAll` recursing beyond the supplied bound. -/
  | fuelOut
  /-- `Failed to find graph key for import ... in module ...` (`getGraphId`). -/
  | keyNotFound (moduleId : String)
  /-- `Failed to find graph key for import ...` in `removeUnusedImports`. -/
  | depKeyNotFound (moduleId : String)
  /-- `TypeError`: `graphDep!.inverseDependencies` with `graphDep === undefined`. -/
  | graphDepMissing (absolutePath : String)
  /-- `TypeError`: reading `.name` of `specifier.imported` when `imported` is
  `undefined` (default / namespace import specifiers). -/
  | importedUndefined
  /-- Babel: `you can't remove a removed node` (second `path.remove()` on the same
  `ExportNamedDeclaration`). -/
  | removedNode
  /-- Babel `traverse` called on an `undefined` AST. -/
  | traverseNull
  deriving DecidableEq, Repr

/-- Effectful map over a list, aborting at the first error (the behavior of a JS loop
whose body may throw). -/
def mapE {α β : Type} (f : α → Except ShakeErr β) : List α → Except ShakeErr (List β)
  | [] => .ok []
  | x :: xs => do
      let y ← f x
      let ys ← mapE f xs
      .ok (y :: ys)

/-! ## Usage Analyzer: `collectImportExports` (source lines 88–147) -/

/-- `getGraphId` (lines 89–100): find the resolved absolute path of `moduleId` among
`value.dependencies.values()`, or throw. -/
def getGraphId (value : Module) (moduleId : String) : Except ShakeErr String :=
  match (value.dependencies.map Prod.snd).find? (fun dep => dep.data.name = moduleId) with
  | some dep => .ok dep.absolutePath
  | none => .error (.keyNotFound moduleId)

/-- The specifier record pushed for an AST import specifier (lines 117–123):
`importedName` is `specifier.imported.name` for an `ImportSpecifier` and `null`
otherwise; `localName` is `specifier.local.name`. -/
def specRecOfAstSpec : AstSpec → SpecRec
  | .importSpecifier i l => ⟨"ImportSpecifier", some i, l⟩
  | .importDefaultSpecifier l => ⟨"ImportDefaultSpecifier", none, l⟩
  | .importNamespaceSpecifier l => ⟨"ImportNamespaceSpecifier", none, l⟩

/-- The import records produced by the `traverse` of `collectImportExports`
(lines 113–145): one record per `ImportDeclaration`, and one `cjs` record per
`require('<string literal>')` call, in traversal order. -/
def recordImports (value : Module) : Ast → Except ShakeErr (List ImportRec)
  | [] => .ok []
  | .importDecl source specifiers :: rest => do
      let key ← getGraphId value source
      let tail ← recordImports value rest
      .ok (⟨source, key, specifiers.map specRecOfAstSpec, false⟩ :: tail)
  | .other _ requireCalls _ _ :: rest => do
      let here ← mapE (fun src => do
        let key ← getGraphId value src
        .ok (⟨src, key, [], true⟩ : ImportRec)) requireCalls
      let tail ← recordImports value rest
      .ok (here ++ tail)
  | .exportDefault _ requireCalls :: rest => do
      let here ← mapE (fun src => do
        let key ← getGraphId value src
        .ok (⟨src, key, [], true⟩ : ImportRec)) requireCalls
      let tail ← recordImports value rest
      .ok (here ++ tail)
  | .exportVars _ requireCalls :: rest => do
      let here ← mapE (fun src => do
        let key ← getGraphId value src
        .ok (⟨src, key, [], true⟩ : ImportRec)) requireCalls
      let tail ← recordImports value rest
      .ok (here ++ tail)
  | .exportFun _ _ requireCalls :: rest => do
      let here ← mapE (fun src => do
        let key ← getGraphId value src
        .ok (⟨src, key, [], true⟩ : ImportRec)) requireCalls
      let tail ← recordImports value rest
      .ok (here ++ tail)

/-- `collectImportExports` for one output item (lines 101–146): parse the code if there
is no AST yet, store the AST back, and overwrite `data.modules` with the freshly
recorded imports (and the always-empty `exports`). -/
def collectOutput (value : Module) (item : OutputItem) : Except ShakeErr OutputItem :=
  match recordImports value (item.data.ast.getD item.data.code) with
  | .error e => .error e
  | .ok imports =>
      .ok { item with data := { item.data with
              ast := some (item.data.ast.getD item.data.code),
              modules := some ⟨imports, []⟩ } }

/-- `collectImportExports` for one module: process every output item. -/
def collectModule (value : Module) : Except ShakeErr Module :=
  match mapE (collectOutput value) value.output with
  | .error e => .error e
  | .ok output => .ok { value with output := output }

/-- The first loop of `treeShakeAll` (lines 362–364): run `collectImportExports` over
every module of the graph. -/
def collectAll (g : Graph) : Except ShakeErr Graph :=
  mapE collectModule g

/-! ## `detectCommonJsExportsUsage` (source lines 149–186)

Note: this function is defined by the source but never called anywhere in the file. -/

/-- The `MemberExpression` visitor test (lines 153–161): the member expression's object
is `module` with property `exports`, or its object is `exports` (any property). -/
def memberIsCommonJs (me : String × String) : Bool :=
  (me.1 = "module" && me.2 = "exports") || me.1 = "exports"

/-- The `CallExpression` visitor test (lines 162–182): an `Object.assign` or
`Object.defineProperties` call whose first argument is the member expression
`module.exports` or the identifier `exports`. -/
def objectCallArgIsCommonJs : ObjArg → Bool
  | .memberExpr obj prop => obj = "module" && prop = "exports"
  | .ident name => name = "exports"
  | .otherArg => false

/-- `detectCommonJsExportsUsage`: true iff the AST contains one of the CommonJS-shaped
export patterns above.  Defined by the source at lines 149–186 and never invoked. -/
def detectCommonJsExportsUsage (ast : Ast) : Bool :=
  ast.any (fun s =>
    match s with
    | .other _ _ memberExprs objectCallArgs =>
        memberExprs.any memberIsCommonJs || objectCallArgs.any objectCallArgIsCommonJs
    | _ => false)

/-! ## Export pruning: `treeShakeExports` (source lines 188–271) -/

/-- The per-output-item test of `isExportUsed` (lines 195–212): the item is a
`js/module` output whose recorded imports contain an entry with `key === depId` that is
either `cjs` or has a specifier whose `importedName` equals `importName`. -/
def itemUsage (depId importName : String) (item : OutputItem) : Bool :=
  if item.type = "js/module" then
    match item.data.modules with
    | some mi =>
        mi.imports.any (fun imp =>
          imp.key = depId &&
            (imp.cjs || imp.specifiers.any (fun sp => sp.importedName = some importName)))
    | none => false
  else false

/-- The per-inverse-dependency test of `isExportUsed` (lines 194–213); a dangling
inverse path (`dep === undefined`, the `dep?.` optional chain) contributes `false`. -/
def depUsage (depId importName : String) : Option Module → Bool
  | none => false
  | some dep => dep.output.any (itemUsage depId importName)

/-- `isExportUsed` (lines 193–214) over the snapshot of inverse-dependency modules taken
at the top of `treeShakeExports`. -/
def isExportUsed (inverseDeps : List (Option Module)) (depId : String)
    (importName : String) : Bool :=
  inverseDeps.any (depUsage depId importName)

/-- The export-pruning traversal of one AST (lines 238–269), with `annotate = false` so
`markUnused` is `path.remove()`.  For an `ExportNamedDeclaration` holding a variable
declaration, the source calls `path.remove()` once per unused identifier declarator —
removing the whole statement on the first unused declarator, and throwing Babel's
"removed node" error on a second one. -/
def pruneExportsAst (used : String → Bool) : Ast → Except ShakeErr Ast
  | [] => .ok []
  | .exportDefault u rq :: rest =>
      if used "default" then (pruneExportsAst used rest).map (.exportDefault u rq :: ·)
      else pruneExportsAst used rest
  | .exportVars decls rq :: rest =>
      let unusedDecls := decls.filter (fun d => !(used d.name))
      if 2 ≤ unusedDecls.length then .error .removedNode
      else if unusedDecls.length = 1 then pruneExportsAst used rest
      else (pruneExportsAst used rest).map (.exportVars decls rq :: ·)
  | .exportFun name u rq :: rest =>
      if used name then (pruneExportsAst used rest).map (.exportFun name u rq :: ·)
      else pruneExportsAst used rest
  | .importDecl src specs :: rest =>
      (pruneExportsAst used rest).map (.importDecl src specs :: ·)
  | .other u rc me oc :: rest =>
      (pruneExportsAst used rest).map (.other u rc me oc :: ·)

/-- The closure `isExportUsed` of `treeShakeExports`, over the snapshot of
inverse-dependency modules taken at its top (lines 189–191). -/
def usedPredicate (g : Graph) (depId : String) (value : Module) : String → Bool :=
  fun name =>
    isExportUsed (value.inverseDependencies.map (fun id => graphGet g id)) depId name

/-- Export pruning of one output item (lines 216–270). -/
def pruneOutputItem (used : String → Bool) (item : OutputItem) : Except ShakeErr OutputItem :=
  match item.data.ast with
  | none => .error .traverseNull
  | some ast =>
      match pruneExportsAst used ast with
      | .error e => .error e
      | .ok ast' => .ok { item with data := { item.data with ast := some ast' } }

/-- `treeShakeExports` (lines 188–271): snapshot the inverse-dependency modules, then
prune each output item's AST with `isExportUsed`. -/
def treeShakeExports (g : Graph) (depId : String) (value : Module) :
    Except ShakeErr Module :=
  match mapE (pruneOutputItem (usedPredicate g depId value)) value.output with
  | .error e => .error e
  | .ok output => .ok { value with output := output }

/-! ## Import pruning: `removeUnusedImports` (source lines 273–358) -/

/-- Insert into a JS `Set` (insertion order, no duplicates). -/
def setAdd (l : List String) (x : String) : List String :=
  if l.contains x then l else l ++ [x]

/-- The `importedIdentifiers` set (lines 282–291): for an `ImportSpecifier` the
**imported** name is added; for default and namespace specifiers the **local** name. -/
def collectImported (ast : Ast) : List String :=
  ast.foldl (fun acc s =>
    match s with
    | .importDecl _ specifiers =>
        specifiers.foldl (fun acc sp =>
          match sp with
          | .importSpecifier imported _ => setAdd acc imported
          | .importDefaultSpecifier l => setAdd acc l
          | .importNamespaceSpecifier l => setAdd acc l) acc
    | _ => acc) []

/-- The identifier names the `Identifier` visitor (lines 292–300) records for one
statement: read sites that are not inside an import specifier and are not binding
identifiers (`uses` payloads carry exactly those, see the `Stmt` documentation). -/
def stmtUses : Stmt → List String
  | .importDecl _ _ => []
  | .exportDefault uses _ => uses
  | .exportVars decls _ => decls.foldl (fun acc d => acc ++ d.uses) []
  | .exportFun _ uses _ => uses
  | .other uses _ _ _ => uses

/-- The `usedIdentifiers` set. -/
def collectUsed (ast : Ast) : List String :=
  ast.foldl (fun acc s => (stmtUses s).foldl setAdd acc) []

/-- `specifiers.filter((specifier) => !unusedImports.includes(specifier.imported.name))`
(lines 314–316): accessing `specifier.imported.name` throws a `TypeError` on default and
namespace specifiers, whose `imported` is `undefined`. -/
def filterSpecifiers (unusedImports : List String) :
    List AstSpec → Except ShakeErr (List AstSpec)
  | [] => .ok []
  | sp :: sps =>
      match sp.imported with
      | none => .error .importedUndefined
      | some name =>
          if unusedImports.contains name then filterSpecifiers unusedImports sps
          else (filterSpecifiers unusedImports sps).map (sp :: ·)

/-- The edge-detaching block (lines 322–348) run when an import declaration's specifier
list becomes empty: find the dependency key by specifier string, delete the reverse
link, garbage-collect the target module if its inverse-dependency set became empty, and
delete the forward dependency entry.  The threaded `value` is the same object as the
graph's entry for `value.path` whenever that key is mapped, so mutations of the target
module fold back into `value` when the edge is a self-edge. -/
def detachEdge (value : Module) (g : Graph) (importModuleId : String) :
    Except ShakeErr (Module × Graph) := do
  match value.dependencies.find? (fun kv => kv.2.data.name = importModuleId) with
  | none => .error (.depKeyNotFound importModuleId)
  | some (depId, dep) =>
      if dep.absolutePath = value.path then
        -- `graphDep === value` when the key is mapped; `undefined` otherwise.
        match graphGet g value.path with
        | none => .error (.graphDepMissing dep.absolutePath)
        | some _ =>
            let v1 : Module :=
              { value with inverseDependencies :=
                  value.inverseDependencies.filter (fun q => q != value.path) }
            let g1 := graphSet g v1
            let g2 := if v1.inverseDependencies.isEmpty then graphDelete g1 dep.absolutePath else g1
            let v2 : Module :=
              { v1 with dependencies := v1.dependencies.filter (fun kv => kv.1 != depId) }
            .ok (v2, graphSync g2 v2)
      else
        match graphGet g dep.absolutePath with
        | none => .error (.graphDepMissing dep.absolutePath)
        | some gd =>
            let gd1 : Module :=
              { gd with inverseDependencies :=
                  gd.inverseDependencies.filter (fun q => q != value.path) }
            let g1 :=
              if gd1.inverseDependencies.isEmpty then graphDelete g dep.absolutePath
              else graphSet g gd1
            let v1 : Module :=
              { value with dependencies := value.dependencies.filter (fun kv => kv.1 != depId) }
            .ok (v1, graphSync g1 v1)

/-- The set difference `unusedImports` (lines 303–306): imported identifiers whose
name is not in the used-identifier set. -/
def unusedImportsOf (ast : Ast) : List String :=
  (collectImported ast).filter (fun i => !((collectUsed ast).contains i))

/-- The second traversal of `removeUnusedImports` (lines 312–355): filter each import
declaration's specifiers, and when none remain, detach the edge and remove the
declaration node.  Returns the rewritten statement list, the updated module and graph,
and the `removed` flag. -/
def removeImportsAst (unusedImports : List String) :
    List Stmt → Module → Graph → Bool → Except ShakeErr (Ast × Module × Graph × Bool)
  | [], v, g, removed => .ok ([], v, g, removed)
  | .importDecl source specifiers :: rest, v, g, removed =>
      match filterSpecifiers unusedImports specifiers with
      | .error e => .error e
      | .ok specifiers' =>
          if specifiers'.isEmpty then
            match detachEdge v g source with
            | .error e => .error e
            | .ok (v, g) => removeImportsAst unusedImports rest v g true
          else
            match removeImportsAst unusedImports rest v g removed with
            | .error e => .error e
            | .ok (t, v, g, r) => .ok (.importDecl source specifiers' :: t, v, g, r)
  | .exportDefault u rq :: rest, v, g, removed =>
      match removeImportsAst unusedImports rest v g removed with
      | .error e => .error e
      | .ok (t, v, g, r) => .ok (.exportDefault u rq :: t, v, g, r)
  | .exportVars decls rq :: rest, v, g, removed =>
      match removeImportsAst unusedImports rest v g removed with
      | .error e => .error e
      | .ok (t, v, g, r) => .ok (.exportVars decls rq :: t, v, g, r)
  | .exportFun name u rq :: rest, v, g, removed =>
      match removeImportsAst unusedImports rest v g removed with
      | .error e => .error e
      | .ok (t, v, g, r) => .ok (.exportFun name u rq :: t, v, g, r)
  | .other u rc me oc :: rest, v, g, removed =>
      match removeImportsAst unusedImports rest v g removed with
      | .error e => .error e
      | .ok (t, v, g, r) => .ok (.other u rc me oc :: t, v, g, r)

/-- Replace the AST of the output item at `idx`. -/
def setAstAt : List OutputItem → Nat → Ast → List OutputItem
  | [], _, _ => []
  | item :: rest, 0, ast =>
      { item with data := { item.data with ast := some ast } } :: rest
  | item :: rest, n + 1, ast => item :: setAstAt rest n ast

/-- Replace the AST of output item `idx` of a module (the in-place mutation of the
traversed `ast` object). -/
def setOutputAst (v : Module) (idx : Nat) (ast : Ast) : Module :=
  { v with output := setAstAt v.output idx ast }

/-- `removeUnusedImports` (lines 273–358) on output item `idx` of `value`: compute
the imported and used identifier sets, subtract, initialize `removed` to whether any
unused import name exists, then run the removal traversal. -/
def removeUnusedImports (value : Module) (idx : Nat) (g : Graph) :
    Except ShakeErr (Module × Graph × Bool) :=
  match value.output.get? idx with
  | none => .error .traverseNull
  | some item =>
      match item.data.ast with
      | none => .error .traverseNull
      | some ast =>
          match removeImportsAst (unusedImportsOf ast) ast value g
              (!(unusedImportsOf ast).isEmpty) with
          | .error e => .error e
          | .ok (ast', v, g, removed) => .ok (setOutputAst v idx ast', g, removed)

/-! ## The fixpoint loop: `treeShakeAll` (source lines 360–381)

The source recursion is

```text
function treeShakeAll() {
  for (const value of graph.dependencies.values()) collectImportExports(value);
  for (const [depId, value] of graph.dependencies.entries()) {
    treeShakeExports(depId, value);
    for (const index in value.output) {
      if (removeUnusedImports(value, value.output[index].data.ast)) treeShakeAll();
    }
  }
}
```

It is embedded with explicit fuel: `treeShakeAll` is structural on the fuel and passes
`treeShakeAll fuel` as the `recurse` callback of the two loops.  A JS `Map` iterator
skips entries deleted during iteration and only deletions occur, so the module loop
iterates over the snapshot of keys, skipping ones no longer mapped.  After a recursive
call returns, the loop's `value` variable still refers to the same module object, whose
current state is the graph's entry when still mapped (and its last synced state when the
recursion deleted it from the graph). -/

/-- The inner loop over a module's output items (`for (const index in value.output)`),
with `remaining` output items starting at index `idx`. -/
def shakeOutputs (recurse : Graph → Except ShakeErr Graph) :
    Nat → Nat → Module → Graph → Except ShakeErr Graph
  | 0, _, _, g => .ok g
  | remaining + 1, idx, value, g =>
      match removeUnusedImports value idx g with
      | .error e => .error e
      | .ok (v, g, removed) =>
          if removed then
            match recurse (graphSync g v) with
            | .error e => .error e
            | .ok g => shakeOutputs recurse remaining (idx + 1) ((graphGet g v.path).getD v) g
          else shakeOutputs recurse remaining (idx + 1) v (graphSync g v)

/-- The outer loop over the graph's modules
(`for (const [depId, value] of graph.dependencies.entries())`). -/
def shakeModules (recurse : Graph → Except ShakeErr Graph) :
    List String → Graph → Except ShakeErr Graph
  | [], g => .ok g
  | p :: rest, g =>
      match graphGet g p with
      | none => shakeModules recurse rest g
      | some value =>
          match treeShakeExports g p value with
          | .error e => .error e
          | .ok value =>
              match shakeOutputs recurse value.output.length 0 value (graphSet g value) with
              | .error e => .error e
              | .ok g => shakeModules recurse rest g

/-- `treeShakeAll` (lines 360–381), with fuel bounding the recursion depth. -/
def treeShakeAll : Nat → Graph → Except ShakeErr Graph
  | 0, _ => .error .fuelOut
  | fuel + 1, g =>
      match collectAll g with
      | .error e => .error e
      | .ok g => shakeModules (treeShakeAll fuel) (g.map Module.path) g

/-! ## The plugin and the serializer chain (source lines 73–496 and 624–638) -/

/-- The request options consulted by the modelled code paths. -/
structure Options where
  dev : Bool
  projectRoot : String
  serverRoot : Option String
  deriving DecidableEq, Repr

/-- The serializer parameters four-tuple
`(entryPoint, preModules, graph, options)`. -/
structure SerializerParameters where
  entryPoint : String
  preModules : List Module
  graph : Graph
  options : Options
  deriving DecidableEq, Repr

/-- `treeShakeSerializerPlugin` (lines 73–496): run `treeShakeAll` on the graph, then
the module-code regeneration loop (lines 385–489, Babel re-wrapping and code
generation — external transforms abstracted as the graph transformation `regen`, which
is the only thing that loop touches), and return the four-tuple with the same entry
point, prepended modules, and options. -/
def treeShakeSerializerPlugin (regen : Graph → Graph) (fuel : Nat)
    (props : SerializerParameters) : Except ShakeErr SerializerParameters := do
  let g ← treeShakeAll fuel props.graph
  .ok { entryPoint := props.entryPoint, preModules := props.preModules,
        graph := regen g, options := props.options }

/-- A serializer plugin: a stage mapping the four-tuple to a four-tuple (source line 36). -/
abbrev SerializerPlugin := SerializerParameters → SerializerParameters

/-- The processor loop of `createSerializerFromSerialProcessors` (lines 630–634):
`for (const processor of processors) { if (processor) { props = processor(...props); } }`. -/
def runPlugins (processors : List (Option SerializerPlugin))
    (props : SerializerParameters) : SerializerParameters :=
  processors.foldl (fun props processor =>
    match processor with
    | some p => p props
    | none => props) props

/-- `createSerializerFromSerialProcessors` (lines 624–638): run the processors in list
order, then hand the resulting tuple to the final serializer. -/
def createSerializerFromSerialProcessors {σ : Type}
    (processors : List (Option SerializerPlugin))
    (finalSerializer : SerializerParameters → σ) : SerializerParameters → σ :=
  fun props => finalSerializer (runPlugins processors props)

/-! ## Source-map `sources` rewriting (source lines 563–574)

`getDefaultSerializer`'s static-export branch rewrites the parsed source map's
`sources` array:

```text
parsed.sources = parsed.sources.map((value) => {
  if (value.startsWith('/')) {
    return '/' + path.relative(options.serverRoot ?? options.projectRoot, value);
  }
  return value;  // Prevent `__prelude__` from being relative.
});
```

`path.relative` is Node's POSIX `path.relative`, modelled for normalized absolute
inputs: split both paths into segments, drop the common prefix, emit `..` for each
remaining segment of `from` and then the remaining segments of `to`. -/

/-- Split a path string into its `/`-separated non-empty segments
(character-level so that concrete instances reduce in the kernel). -/
def splitSegs (cs : List Char) (acc : List Char) : List (List Char) :=
  match cs with
  | [] => [acc.reverse]
  | c :: rest => if c = '/' then acc.reverse :: splitSegs rest [] else splitSegs rest (c :: acc)

/-- The segments of a path, empty segments dropped. -/
def splitPath (s : String) : List String :=
  ((splitSegs s.data []).filter (fun seg => !(seg.isEmpty))).map (fun seg => String.mk seg)

/-- Drop the common prefix of two segment lists. -/
def dropCommon : List String → List String → List String × List String
  | f :: fs, t :: ts => if f = t then dropCommon fs ts else (f :: fs, t :: ts)
  | f, t => (f, t)

/-- The relative path between two segment lists: `..` for every remaining segment of
`from`, then the remaining segments of `to`. -/
def relativeSegs (f t : List String) : List String :=
  let (f', t') := dropCommon f t
  f'.map (fun _ => "..") ++ t'

/-- Modelled from Node's `path.relative` (POSIX), for normalized absolute paths. -/
def pathRelative (fromPath toPath : String) : String :=
  String.intercalate "/" (relativeSegs (splitPath fromPath) (splitPath toPath))

/-- JavaScript `value.startsWith('/')`. -/
def startsWithSlash (s : String) : Bool :=
  s.data.head? = some '/'

/-- The rewrite applied to a single `sources` entry (lines 567–573). -/
def rewriteSource (serverRoot : Option String) (projectRoot : String) (value : String) :
    String :=
  if startsWithSlash value then "/" ++ pathRelative (serverRoot.getD projectRoot) value
  else value

/-- `parsed.sources.map(...)` (lines 565–574). -/
def rewriteSources (serverRoot : Option String) (projectRoot : String)
    (sources : List String) : List String :=
  sources.map (rewriteSource serverRoot projectRoot)

/-! ## Measures, observations and fixpoint predicates (for the theorems below) -/

/-- The total number of import edges of the graph (`dependencies` entries), the
quantity the spec's termination argument speaks about. -/
def edgeCount (g : Graph) : Nat :=
  (g.map (fun m => m.dependencies.length)).sum

/-- The import size of a statement: the number of specifiers of an import declaration
plus one for the declaration itself (so removing an empty declaration also counts);
zero for everything else. -/
def stmtWeight : Stmt → Nat
  | .importDecl _ specifiers => specifiers.length + 1
  | _ => 0

/-- The import size of an AST. -/
def astWeight (a : Ast) : Nat :=
  (a.map stmtWeight).sum

/-- The import size of an output item, measured on its effective AST
(the stored AST, or the parse of the code when no AST is stored yet). -/
def itemWeight (item : OutputItem) : Nat :=
  astWeight (item.data.ast.getD item.data.code)

/-- The import size of a module. -/
def moduleWeight (m : Module) : Nat :=
  (m.output.map itemWeight).sum

/-- The import size of a graph. -/
def graphWeight (g : Graph) : Nat :=
  (g.map moduleWeight).sum

/-- The import size of a processing state of `removeUnusedImports`: the threaded module
object plus the graph without that object's key (the object is the map's value for its
key whenever mapped, so this counts every live object exactly once whether or not the
module is still mapped). -/
def pairWeight (v : Module) (g : Graph) : Nat :=
  moduleWeight v + graphWeight (graphDelete g v.path)

/-- The graph's keys are pairwise distinct (always true of a JS `Map`). -/
def NodupPaths (g : Graph) : Prop :=
  (g.map Module.path).Nodup

/-- The part of a module that `isExportUsed` and hence `treeShakeExports` can observe
about *other* modules: path, inverse dependencies, and each output's type and recorded
usage metadata. -/
def moduleObs (m : Module) : String × List String × List (String × Option ModulesInfo) :=
  (m.path, m.inverseDependencies, m.output.map (fun i => (i.type, i.data.modules)))

/-- The observation of a whole graph. -/
def graphObs (g : Graph) : List (String × List String × List (String × Option ModulesInfo)) :=
  g.map moduleObs

/-- Module `m` is a fixed point of both per-module passes in graph `g`: export pruning
returns it unchanged and import pruning reports no removal on any of its output items. -/
def StepFixed (g : Graph) (m : Module) : Prop :=
  treeShakeExports g m.path m = .ok m ∧
    ∀ idx, idx < m.output.length → removeUnusedImports m idx g = .ok (m, g, false)

/-- The graph is a fixed point of the whole pass: re-collecting changes nothing and
every mapped module is step-fixed. -/
def PassFixed (g : Graph) : Prop :=
  collectAll g = .ok g ∧ ∀ p m, graphGet g p = some m → StepFixed g m

/-- Does some import declaration of the AST contain a default or namespace specifier
(whose `imported` field is `undefined`)? -/
def hasDefaultSpecifier (ast : Ast) : Bool :=
  ast.any (fun s =>
    match s with
    | .importDecl _ specifiers => specifiers.any (fun sp => sp.imported = none)
    | _ => false)

/-- Does some import declaration of the AST contain a *named* specifier whose imported
name lies in `u`? -/
def hasDroppableSpec (u : List String) (ast : Ast) : Bool :=
  ast.any (fun s =>
    match s with
    | .importDecl _ specifiers =>
        specifiers.any (fun sp =>
          match sp.imported with
          | some n => u.contains n
          | none => false)
    | _ => false)

/-! ## One full iteration, as the specification describes it

The specification's termination argument (§4.3) speaks of "each full iteration" of
"the entire two-pass sequence".  The source interleaves its re-runs inside the module
loop, so the spec's iteration is embedded here as its own clearly named definition,
following the spec's words: one complete sweep — re-collect usage for all modules, then
for every module run export pruning followed by import pruning on each output item —
with the re-run *requests* accumulated into a Boolean instead of performed. -/

/-- The import-pruning half of one spec iteration for the output items of one module. -/
def specOnePassOutputs :
    Nat → Nat → Module → Graph → Bool → Except ShakeErr (Graph × Bool)
  | 0, _, _, g, acc => .ok (g, acc)
  | remaining + 1, idx, value, g, acc =>
      match removeUnusedImports value idx g with
      | .error e => .error e
      | .ok (v, g, removed) =>
          specOnePassOutputs remaining (idx + 1) v (graphSync g v) (acc || removed)

/-- The module loop of one spec iteration. -/
def specOnePassModules :
    List String → Graph → Bool → Except ShakeErr (Graph × Bool)
  | [], g, acc => .ok (g, acc)
  | p :: rest, g, acc =>
      match graphGet g p with
      | none => specOnePassModules rest g acc
      | some value =>
          match treeShakeExports g p value with
          | .error e => .error e
          | .ok value =>
              match specOnePassOutputs value.output.length 0 value (graphSet g value) acc with
              | .error e => .error e
              | .ok (g, acc) => specOnePassModules rest g acc

/-- One full iteration of the two-pass sequence in the sense of the specification,
returning the resulting graph and whether any removal was reported (i.e. whether the
source would have re-run `treeShakeAll`). -/
def specOnePass (g : Graph) : Except ShakeErr (Graph × Bool) :=
  match collectAll g with
  | .error e => .error e
  | .ok g => specOnePassModules (g.map Module.path) g false

/-- Is the statement an export declaration (default, variable, or function/class)? -/
def isExportDecl : Stmt → Bool
  | .exportDefault _ _ => true
  | .exportVars _ _ => true
  | .exportFun _ _ _ => true
  | _ => false

/-! ## Concrete instances

Small graphs used by the counterexamples and witnesses below.  Each one is spelled out
in the JavaScript it embeds. -/

/-- `/m` (CommonJS-shaped module): `exports.foo = 1; export const a = 1; export function b() {}`,
and imported by `/x`. -/
def cjsAstM : Ast :=
  [.other ["exports", "foo"] [] [("exports", "foo")] [],
   .exportVars [⟨"a", []⟩] [],
   .exportFun "b" [] []]

/-- The CommonJS-shaped module `/m`. -/
def cjsModuleM : Module :=
  { path := "/m", dependencies := [], inverseDependencies := ["/x"],
    output := [⟨"js/module", ⟨cjsAstM, none, none⟩⟩] }

/-- `/x`: `import { b } from './m'; b();`. -/
def cjsImporterX : Module :=
  { path := "/x",
    dependencies := [("./m", ⟨⟨"./m"⟩, "/m"⟩)],
    inverseDependencies := [],
    output := [⟨"js/module",
      ⟨[.importDecl "./m" [.importSpecifier "b" "b"], .other ["b"] [] [] []], none, none⟩⟩] }

/-- The graph containing `/x` and the CommonJS-shaped `/m`. -/
def cjsGraph : Graph := [cjsImporterX, cjsModuleM]

/-- An entry-point module `/entry` (no inverse dependencies): `export const a = 1;`. -/
def entryModule : Module :=
  { path := "/entry", dependencies := [], inverseDependencies := [],
    output := [⟨"js/module", ⟨[.exportVars [⟨"a", []⟩] []], none, none⟩⟩] }

/-- `/m`: `export const a = 1, b = 2;`, and imported by `/x`. -/
def usedExportM : Module :=
  { path := "/m", dependencies := [], inverseDependencies := ["/x"],
    output := [⟨"js/module", ⟨[.exportVars [⟨"a", []⟩, ⟨"b", []⟩] []], none, none⟩⟩] }

/-- `/x`: `import { a } from './m'; a();`. -/
def namedImporterX : Module :=
  { path := "/x",
    dependencies := [("./m", ⟨⟨"./m"⟩, "/m"⟩)],
    inverseDependencies := [],
    output := [⟨"js/module",
      ⟨[.importDecl "./m" [.importSpecifier "a" "a"], .other ["a"] [] [] []], none, none⟩⟩] }

/-- The graph containing `/x` and `/m` above. -/
def usedExportGraph : Graph := [namedImporterX, usedExportM]

/-- The AST of `/a`: `import { a as b } from './b'; b();`. -/
def aliasAstA : Ast :=
  [.importDecl "./b" [.importSpecifier "a" "b"], .other ["b"] [] [] []]

/-- `/a` with its AST and usage records already collected. -/
def aliasedImporterA : Module :=
  { path := "/a", dependencies := [("./b", ⟨⟨"./b"⟩, "/b"⟩)], inverseDependencies := [],
    output := [⟨"js/module", ⟨aliasAstA, some aliasAstA, some ⟨[], []⟩⟩⟩] }

/-- `/b`: `export function a() {}`, imported (aliased) by `/a`. -/
def aliasTargetB : Module :=
  { path := "/b", dependencies := [], inverseDependencies := ["/a"],
    output := [⟨"js/module", ⟨[.exportFun "a" [] []], some [.exportFun "a" [] []], some ⟨[], []⟩⟩⟩] }

/-- The graph containing the aliased importer and its target. -/
def aliasGraph : Graph := [aliasedImporterA, aliasTargetB]

/-- `/a` (entry): `import { x } from './b';` — `x` is never used. -/
def chainA : Module :=
  { path := "/a", dependencies := [("./b", ⟨⟨"./b"⟩, "/b"⟩)], inverseDependencies := [],
    output := [⟨"js/module", ⟨[.importDecl "./b" [.importSpecifier "x" "x"]], none, none⟩⟩] }

/-- `/b`: `import { y } from './c'; y();`, imported by `/a`. -/
def chainB : Module :=
  { path := "/b", dependencies := [("./c", ⟨⟨"./c"⟩, "/c"⟩)], inverseDependencies := ["/a"],
    output := [⟨"js/module",
      ⟨[.importDecl "./c" [.importSpecifier "y" "y"], .other ["y"] [] [] []], none, none⟩⟩] }

/-- `/c`: `export function y() {}`, imported by `/b`. -/
def chainC : Module :=
  { path := "/c", dependencies := [], inverseDependencies := ["/b"],
    output := [⟨"js/module", ⟨[.exportFun "y" [] []], none, none⟩⟩] }

/-- The three-module chain `/a → /b → /c`. -/
def chainGraph : Graph := [chainA, chainB, chainC]

/-- The AST of `/a` in the iteration counterexample:
`import { x, y } from './b'; x();` — `y` is never used. -/
def iterAstA : Ast :=
  [.importDecl "./b" [.importSpecifier "x" "x", .importSpecifier "y" "y"],
   .other ["x"] [] [] []]

/-- The usage records of `iterAstA`. -/
def iterRecsA : ModulesInfo :=
  ⟨[⟨"./b", "/b", [⟨"ImportSpecifier", some "x", "x"⟩, ⟨"ImportSpecifier", some "y", "y"⟩],
     false⟩], []⟩

/-- `/a` of the iteration counterexample, in already-collected form. -/
def iterModA : Module :=
  { path := "/a", dependencies := [("./b", ⟨⟨"./b"⟩, "/b"⟩)], inverseDependencies := [],
    output := [⟨"js/module", ⟨iterAstA, some iterAstA, some iterRecsA⟩⟩] }

/-- The AST of `/b`: `export function x() {} export function y() {}`. -/
def iterAstB : Ast := [.exportFun "x" [] [], .exportFun "y" [] []]

/-- `/b` of the iteration counterexample, in already-collected form. -/
def iterModB : Module :=
  { path := "/b", dependencies := [], inverseDependencies := ["/a"],
    output := [⟨"js/module", ⟨iterAstB, some iterAstB, some ⟨[], []⟩⟩⟩] }

/-- The iteration counterexample graph. -/
def iterGraph : Graph := [iterModA, iterModB]

/-- `iterGraph` after one spec iteration: identical except that the unused specifier
`y` is gone from `/a`'s import declaration — in particular every edge survives. -/
def iterGraphAfter : Graph :=
  [{ iterModA with output := [⟨"js/module",
      ⟨iterAstA,
       some [.importDecl "./b" [.importSpecifier "x" "x"], .other ["x"] [] [] []],
       some iterRecsA⟩⟩] },
   iterModB]

/-- A single self-contained module `/w`: `export function f() {} f();` with a used
export, for witnesses. -/
def idemModule : Module :=
  { path := "/w", dependencies := [], inverseDependencies := [],
    output := [⟨"js/module", ⟨[.other ["f"] [] [] []], none, none⟩⟩] }

/-- The fixed point `treeShakeAll` reaches on `[idemModule]`: the same module with its
AST parsed and its (empty) usage records collected. -/
def idemModuleShaken : Module :=
  { path := "/w", dependencies := [], inverseDependencies := [],
    output := [⟨"js/module", ⟨[.other ["f"] [] [] []], some [.other ["f"] [] [] []],
      some ⟨[], []⟩⟩⟩] }

/-- A plain module `/p` with no imports and no exports, for witnesses. -/
def plainModule : Module :=
  { path := "/p", dependencies := [], inverseDependencies := [],
    output := [⟨"js/module", ⟨[.other [] [] [] []], none, none⟩⟩] }

/-- `/p` after the pass: AST parsed, empty records collected. -/
def plainModuleShaken : Module :=
  { path := "/p", dependencies := [], inverseDependencies := [],
    output := [⟨"js/module", ⟨[.other [] [] [] []], some [.other [] [] [] []],
      some ⟨[], []⟩⟩⟩] }

/-- Witness serializer parameters wrapping `[plainModule]`. -/
def plainParams : SerializerParameters :=
  { entryPoint := "/p", preModules := [], graph := [plainModule],
    options := { dev := false, projectRoot := "/proj", serverRoot := none } }

/-- The result `treeShakeSerializerPlugin` produces on `plainParams`. -/
def plainParamsShaken : SerializerParameters :=
  { entryPoint := "/p", preModules := [], graph := [plainModuleShaken],
    options := { dev := false, projectRoot := "/proj", serverRoot := none } }

/-- `/q`: `import { x } from './r';` with `x` never used (AST already parsed). -/
def shrinkQ : Module :=
  { path := "/q", dependencies := [("./r", ⟨⟨"./r"⟩, "/r"⟩)], inverseDependencies := [],
    output := [⟨"js/module", ⟨[.importDecl "./r" [.importSpecifier "x" "x"]],
      some [.importDecl "./r" [.importSpecifier "x" "x"]], none⟩⟩] }

/-- `/r`: `export function x() {}`, imported only by `/q`. -/
def shrinkR : Module :=
  { path := "/r", dependencies := [], inverseDependencies := ["/q"],
    output := [⟨"js/module", ⟨[.exportFun "x" [] []], none, none⟩⟩] }

/-- The two-module graph `/q → /r` fed to one `removeUnusedImports` step. -/
def shrinkGraph : Graph := [shrinkQ, shrinkR]

/-- The module object `removeUnusedImports shrinkQ 0 shrinkGraph` returns: the edge is
detached and the import declaration removed from the AST. -/
def shrinkQShaken : Module :=
  { path := "/q", dependencies := [], inverseDependencies := [],
    output := [⟨"js/module", ⟨[.importDecl "./r" [.importSpecifier "x" "x"]],
      some [], none⟩⟩] }

/-- The graph `removeUnusedImports shrinkQ 0 shrinkGraph` returns: orphaned `/r` is
deleted and `/q` was synced before the AST write-back (so the mapped copy still holds
the unpruned AST). -/
def shrinkGraphShaken : Graph :=
  [{ path := "/q", dependencies := [], inverseDependencies := [],
     output := [⟨"js/module", ⟨[.importDecl "./r" [.importSpecifier "x" "x"]],
       some [.importDecl "./r" [.importSpecifier "x" "x"]], none⟩⟩] }]

/-- Every export-variable statement of the AST has at least one declarator (true of any
AST Babel can produce: `export const;` is not syntax). -/
def astWellFormedVars (a : Ast) : Bool :=
  a.all (fun s =>
    match s with
    | .exportVars decls _ => !decls.isEmpty
    | _ => true)

/-- The `require(...)` string arguments an export declaration contains (empty for
non-export statements). -/
def exportRequiresOf : Stmt → List String
  | .exportDefault _ rq => rq
  | .exportVars _ rq => rq
  | .exportFun _ _ rq => rq
  | _ => []

/-- No export declaration of the AST contains a `require(...)` call. -/
def astReqFree (a : Ast) : Bool :=
  a.all (fun s => (exportRequiresOf s).isEmpty)

/-- No export declaration of the output item's effective AST (the stored AST, or the
code when none is stored) contains a `require(...)` call. -/
def itemReqFree (item : OutputItem) : Bool :=
  astReqFree (item.data.ast.getD item.data.code)

/-- No export declaration anywhere in the module contains a `require(...)` call. -/
def moduleReqFree (m : Module) : Bool :=
  m.output.all itemReqFree

/-- No export declaration anywhere in the graph contains a `require(...)` call. -/
def graphReqFree (g : Graph) : Bool :=
  g.all moduleReqFree

/-- `/p`: `export const a = require('./b');` with `a` imported by nobody — the
`CallExpression` visitor records the `cjs` edge, and the export-pruning pass later
removes the declaration that carries it. -/
def requireExportP : Module :=
  { path := "/p", dependencies := [("./b", ⟨⟨"./b"⟩, "/b"⟩)], inverseDependencies := [],
    output := [⟨"js/module", ⟨[.exportVars [⟨"a", []⟩] ["./b"]], none, none⟩⟩] }

/-- `/b`: `export function f() {}`, held alive only by `/p`'s `require('./b')`. -/
def requireExportB : Module :=
  { path := "/b", dependencies := [], inverseDependencies := ["/p"],
    output := [⟨"js/module", ⟨[.exportFun "f" [] []], none, none⟩⟩] }

/-- The graph on which `treeShakeAll` is not idempotent. -/
def requireExportGraph : Graph := [requireExportP, requireExportB]

/-- The first run's result on `requireExportGraph`: `/p`'s export (with its `require`)
is pruned, but the records collected from the unpruned tree — including the `cjs` edge
to `/b` — are still cached, so `/b`'s `export function f` survives. -/
def requireExportG1 : Graph :=
  [{ path := "/p",
     dependencies := [("./b", ⟨⟨"./b"⟩, "/b"⟩)],
     inverseDependencies := [],
     output := [⟨"js/module",
       ⟨[.exportVars [⟨"a", []⟩] ["./b"]], some [],
        some ⟨[⟨"./b", "/b", [], true⟩], []⟩⟩⟩] },
   { path := "/b", dependencies := [], inverseDependencies := ["/p"],
     output := [⟨"js/module",
       ⟨[.exportFun "f" [] []], some [.exportFun "f" [] []], some ⟨[], []⟩⟩⟩] }]

/-- The second run's result: re-collection from `/p`'s pruned tree finds no `require`,
so `/b`'s exports are no longer used and `export function f` is removed. -/
def requireExportG2 : Graph :=
  [{ path := "/p",
     dependencies := [("./b", ⟨⟨"./b"⟩, "/b"⟩)],
     inverseDependencies := [],
     output := [⟨"js/module",
       ⟨[.exportVars [⟨"a", []⟩] ["./b"]], some [], some ⟨[], []⟩⟩⟩] },
   { path := "/b", dependencies := [], inverseDependencies := ["/p"],
     output := [⟨"js/module",
       ⟨[.exportFun "f" [] []], some [], some ⟨[], []⟩⟩⟩] }]

/-! ## Theorems -/

/-- C1.  The claim fails on the code: `detectCommonJsExportsUsage` recognizes the
CommonJS-shaped pattern in `/m` (`exports.foo = ...`), but the tree-shaking pass never
consults it — `treeShakeExports` prunes regardless, so `/m`'s unused `export const a`
is removed even though its exports should be opaque.  The run evaluates the embedded
pass at the failing input: afterwards `/m`'s AST retains only the CommonJS statement
and the used `export function b`, with the `a` declaration gone. -/
theorem commonJsOpacity_not_enforced :
    detectCommonJsExportsUsage cjsAstM = true ∧
    cjsModuleM.output.map (fun o => o.data.code) = [cjsAstM] ∧
    (treeShakeAll 2 cjsGraph).map (fun g =>
        (graphGet g "/m").map (fun m => m.output.map (fun o => o.data.ast)))
      = .ok (some [some [.other ["exports", "foo"] [] [("exports", "foo")] [],
                         .exportFun "b" [] []]]) := by
  decide

/-- C2 counterexample.  A module with an empty inverse-dependency set is *not* spared:
for the entry point `/entry` (`export const a = 1;`, zero inverse dependencies) the
tree-shaking pass removes its export declaration, leaving an empty AST — the claim
"never removes any export declaration from that module's tree" is false at this
input. -/
theorem entry_exports_pruned_cex :
    entryModule.inverseDependencies = [] ∧
    entryModule.output.map (fun o => o.data.code) = [[.exportVars [⟨"a", []⟩] []]] ∧
    (treeShakeAll 2 [entryModule]).map (fun g =>
        g.map (fun m => m.output.map (fun o => o.data.ast)))
      = .ok [[some []]] := by
  decide

/-- C3.  The survives-iff-imported equivalence fails on the code: `/x` imports `a` from
`/m` by name (and survives the whole pass with that import edge recorded), yet `a`'s
declaration does not survive — `/m` declares `export const a = 1, b = 2;`, and because
`b` is unused, `markUnused` removes the *entire* `ExportNamedDeclaration`, deleting the
used declarator `a` along with it. -/
theorem used_export_declaration_removed :
    usedExportM.output.map (fun o => o.data.code) = [[.exportVars [⟨"a", []⟩, ⟨"b", []⟩] []]] ∧
    (treeShakeAll 2 usedExportGraph).map (fun g =>
        ((graphGet g "/m").map (fun m => m.output.map (fun o => o.data.ast)),
         (graphGet g "/x").map (fun m => m.output.map (fun o => o.data.modules))))
      = .ok (some [some []],
             some [some ⟨[⟨"./m", "/m", [⟨"ImportSpecifier", some "a", "a"⟩], false⟩], []⟩]) := by
  decide

/-- C4.  The unused-iff classification fails on the code for aliased named imports:
in `/a` (`import { a as b } from './b'; b();`) the bound identifier `b` *is* referenced
(it is in the used-identifier set), yet the pass classifies the import by its *imported*
name `a`, finds `a` unused, removes the specifier, removes the then-empty declaration,
detaches the edge, and garbage-collects `/b`. -/
theorem aliased_used_import_removed :
    aliasAstA = [.importDecl "./b" [.importSpecifier "a" "b"], .other ["b"] [] [] []] ∧
    (collectUsed aliasAstA).contains "b" = true ∧
    (removeUnusedImports aliasedImporterA 0 aliasGraph).map (fun r =>
        (r.1.output.map (fun o => o.data.ast), r.1.dependencies, graphGet r.2.1 "/b", r.2.2))
      = .ok ([some [.other ["b"] [] [] []]], [], none, true) := by
  decide

/-- C5.  Bidirectional consistency fails after the fixpoint: in the chain
`/a → /b → /c` (where `/a`'s import of `x` from `/b` is unused), the pass detaches
`a → b` and garbage-collects `/b`, but never cleans up `/b`'s own outgoing edge: the
final graph keeps `/c` with `inverseDependencies = ["/b"]` although `/b` is no longer
in the graph — a dangling reverse edge (and `/c`, now referenced by nobody, is never
collected). -/
theorem orphan_deletion_leaves_dangling_inverse :
    chainB.dependencies = [("./c", ⟨⟨"./c"⟩, "/c"⟩)] ∧
    chainC.inverseDependencies = ["/b"] ∧
    (treeShakeAll 3 chainGraph).map (fun g =>
        (g.map Module.path, (graphGet g "/c").map Module.inverseDependencies))
      = .ok (["/a", "/c"], some ["/b"]) := by
  decide

/-- C7 counterexample.  A full iteration of the two-pass sequence can change the graph
*without* strictly shrinking the total edge count: on `iterGraph` (where `/a` does
`import { x, y } from './b'` and uses only `x`) one iteration removes the `y` specifier
and reports a removal (so the source would re-run), yet the edge count is unchanged —
refuting the claimed dichotomy "strictly shrinks the total edge count or else makes no
change". -/
theorem spec_iteration_not_edge_decreasing :
    specOnePass iterGraph = .ok (iterGraphAfter, true) ∧
    edgeCount iterGraphAfter = edgeCount iterGraph ∧
    iterGraphAfter ≠ iterGraph := by
  decide

/-- C9 counterexample.  The rewriting does not leave the `sources` field free of
absolute paths in the claim's own sense (entries starting with `/`): a source under the
server root is rewritten to `'/' + path.relative(serverRoot, value)`, which again
starts with `/`. -/
theorem rewritten_sources_still_start_with_slash :
    rewriteSources (some "/srv") "/proj" ["/srv/pages/App.js", "__prelude__"]
      = ["/pages/App.js", "__prelude__"] ∧
    startsWithSlash "/pages/App.js" = true := by
  decide

/-- C8.  The serializer built by `createSerializerFromSerialProcessors` is the final
serializer applied to the fold of the processors over the input tuple; the processor
fold runs strictly in list order (the `++` clause: a later block of stages consumes the
output of an earlier block), feeds each stage's output to the next (`some` clause),
and skips `undefined` entries (`none` clause). -/
theorem createSerializer_chain_order {σ : Type} (f : SerializerParameters → σ)
    (ps qs : List (Option SerializerPlugin)) (p : SerializerPlugin)
    (props : SerializerParameters) :
    createSerializerFromSerialProcessors ps f props = f (runPlugins ps props) ∧
    runPlugins [] props = props ∧
    runPlugins (none :: ps) props = runPlugins ps props ∧
    runPlugins (some p :: ps) props = runPlugins ps (p props) ∧
    runPlugins (ps ++ qs) props = runPlugins qs (runPlugins ps props) := by
  refine ⟨rfl, rfl, rfl, rfl, ?_⟩
  simp [runPlugins, List.foldl_append]

/-- C9 amended.  What the rewriting actually does: each entry is rewritten pointwise;
entries not starting with `/` (such as `__prelude__`) are unchanged; entries starting
with `/` become `'/' + path.relative(serverRoot ?? projectRoot, value)` — in
particular, for a source under the root, the root prefix is stripped (the relative
path is exactly the remaining segments), but the result still begins with `/`. -/
theorem rewriteSources_spec (sr : Option String) (proj : String) (srcs : List String)
    (v : String) (root tl : List String) :
    rewriteSources sr proj srcs = srcs.map (rewriteSource sr proj) ∧
    (startsWithSlash v = false → rewriteSource sr proj v = v) ∧
    (startsWithSlash v = true →
      rewriteSource sr proj v = "/" ++ pathRelative (sr.getD proj) v) ∧
    relativeSegs root (root ++ tl) = tl := by
  refine ⟨rfl, ?_, ?_, ?_⟩
  · intro h; simp [rewriteSource, h]
  · intro h; simp [rewriteSource, h]
  · induction root with
    | nil =>
        cases tl with
        | nil => rfl
        | cons t ts => simp [relativeSegs, dropCommon]
    | cons r rs ih => simpa [relativeSegs, dropCommon] using ih

/-- Witness for `rewriteSources_spec` at concrete inputs. -/
theorem rewriteSources_spec_witness :
    rewriteSource (some "/srv") "/proj" "README.md" = "README.md" ∧
    relativeSegs ["srv"] (["srv"] ++ ["App.js"]) = ["App.js"] := by
  have h := rewriteSources_spec (some "/srv") "/proj" [] "README.md" ["srv"] ["App.js"]
  exact ⟨h.2.1 (by decide), h.2.2.2⟩

/-- C10.  Whenever `treeShakeSerializerPlugin` returns, the returned four-tuple carries
the entry point, the prepended-modules sequence, and the options it received; only the
graph component is replaced. -/
theorem treeShakeSerializerPlugin_frame (regen : Graph → Graph) (fuel : Nat)
    (props r : SerializerParameters)
    (h : treeShakeSerializerPlugin regen fuel props = .ok r) :
    r.entryPoint = props.entryPoint ∧ r.preModules = props.preModules ∧
      r.options = props.options := by
  unfold treeShakeSerializerPlugin at h
  cases htsa : treeShakeAll fuel props.graph with
  | error e => rw [htsa] at h; simp [Bind.bind, Except.bind] at h
  | ok g =>
      rw [htsa] at h
      simp only [Bind.bind, Except.bind, Except.ok.injEq] at h
      subst h
      exact ⟨rfl, rfl, rfl⟩

/-- Witness for `treeShakeSerializerPlugin_frame` at a concrete run. -/
theorem treeShakeSerializerPlugin_frame_witness :
    plainParamsShaken.entryPoint = plainParams.entryPoint ∧
    plainParamsShaken.preModules = plainParams.preModules ∧
    plainParamsShaken.options = plainParams.options :=
  treeShakeSerializerPlugin_frame id 2 plainParams plainParamsShaken (by decide)

/-! ### Inversion helpers for `mapE` -/

/-- Inversion of `mapE` on a cons cell. -/
theorem mapE_cons_ok {α β : Type} (f : α → Except ShakeErr β) (x : α) (xs : List α)
    (l : List β) (h : mapE f (x :: xs) = .ok l) :
    ∃ y ys, f x = .ok y ∧ mapE f xs = .ok ys ∧ l = y :: ys := by
  cases hfx : f x with
  | error e => rw [mapE, hfx] at h; simp [Bind.bind, Except.bind] at h
  | ok y =>
      cases hrest : mapE f xs with
      | error e => rw [mapE, hfx, hrest] at h; simp [Bind.bind, Except.bind] at h
      | ok ys =>
          rw [mapE, hfx, hrest] at h
          simp only [Bind.bind, Except.bind, Except.ok.injEq] at h
          exact ⟨y, ys, rfl, rfl, h.symm⟩

/-- Every element of a successful `mapE` result is the image of a list element. -/
theorem mapE_ok_mem {α β : Type} (f : α → Except ShakeErr β) (l : List α)
    (l' : List β) (h : mapE f l = .ok l') :
    ∀ y ∈ l', ∃ x ∈ l, f x = .ok y := by
  induction l generalizing l' with
  | nil =>
      rw [mapE] at h
      simp only [Except.ok.injEq] at h
      subst h; simp
  | cons x xs ih =>
      obtain ⟨y, ys, hfx, hrest, rfl⟩ := mapE_cons_ok f x xs l' h
      intro z hz
      rcases List.mem_cons.mp hz with rfl | hz
      · exact ⟨x, List.mem_cons_self _ _, hfx⟩
      · obtain ⟨w, hw, hfw⟩ := ih ys hrest z hz
        exact ⟨w, List.mem_cons_of_mem _ hw, hfw⟩

/-! ### C2: a module with no inverse dependencies loses all its export declarations -/

/-- With an empty inverse-dependency snapshot, no export is considered used. -/
theorem usedPredicate_nil (g : Graph) (depId : String) (value : Module)
    (hinv : value.inverseDependencies = []) :
    ∀ n, usedPredicate g depId value n = false := by
  intro n
  unfold usedPredicate
  rw [hinv]
  rfl

/-- Inversion of `pruneOutputItem` on success: the item had an AST, it was pruned, and
only the `ast` field changed. -/
theorem pruneOutputItem_ok (used : String → Bool) (item item' : OutputItem)
    (h : pruneOutputItem used item = .ok item') :
    ∃ ast ast', item.data.ast = some ast ∧ pruneExportsAst used ast = .ok ast' ∧
      item' = { item with data := { item.data with ast := some ast' } } := by
  unfold pruneOutputItem at h
  split at h
  · exact absurd h (by simp)
  next ast heq =>
    split at h
    · exact absurd h (by simp)
    next ast' hpr =>
      simp only [Except.ok.injEq] at h
      exact ⟨ast, ast', heq, hpr, h.symm⟩

/-- Pruning with an all-false used-predicate removes every export declaration, provided
each export-variable statement has at least one declarator (and the pass did not throw,
which it does when such a statement has two or more). -/
theorem pruneExportsAst_all_unused (used : String → Bool) (a a' : Ast)
    (hused : ∀ n, used n = false)
    (hwf : ∀ decls rq, Stmt.exportVars decls rq ∈ a → decls ≠ [])
    (h : pruneExportsAst used a = .ok a') :
    ∀ s ∈ a', isExportDecl s = false := by
  induction a generalizing a' with
  | nil =>
      rw [pruneExportsAst] at h
      simp only [Except.ok.injEq] at h
      subst h; simp
  | cons s rest ih =>
      have hwfrest : ∀ decls rq, Stmt.exportVars decls rq ∈ rest → decls ≠ [] :=
        fun decls rq hmem => hwf decls rq (List.mem_cons_of_mem _ hmem)
      cases s with
      | exportDefault u rq =>
          rw [pruneExportsAst, hused "default"] at h
          simp only [Bool.false_eq_true, if_false] at h
          exact ih a' hwfrest h
      | exportFun name u rq =>
          rw [pruneExportsAst, hused name] at h
          simp only [Bool.false_eq_true, if_false] at h
          exact ih a' hwfrest h
      | exportVars decls rq =>
          rw [pruneExportsAst] at h
          have hfilter : decls.filter (fun d => !(used d.name)) = decls := by
            apply List.filter_eq_self.mpr
            intro d _
            rw [hused d.name]
            rfl
          simp only [hfilter] at h
          have hne : decls ≠ [] := hwf decls rq (List.mem_cons_self _ _)
          cases decls with
          | nil => exact absurd rfl hne
          | cons d ds =>
              cases ds with
              | nil =>
                  rw [if_neg (by simp), if_pos (by simp)] at h
                  exact ih a' hwfrest h
              | cons d2 ds2 =>
                  rw [if_pos (by simp [Nat.succ_le_succ])] at h
                  exact absurd h (by simp)
      | importDecl src specs =>
          rw [pruneExportsAst] at h
          cases hrest : pruneExportsAst used rest with
          | error e => rw [hrest] at h; exact absurd h (by simp [Except.map])
          | ok rest' =>
              rw [hrest] at h
              simp only [Except.map, Except.ok.injEq] at h
              subst h
              intro z hz
              rcases List.mem_cons.mp hz with rfl | hz
              · rfl
              · exact ih rest' hwfrest hrest z hz
      | other u rc me oc =>
          rw [pruneExportsAst] at h
          cases hrest : pruneExportsAst used rest with
          | error e => rw [hrest] at h; exact absurd h (by simp [Except.map])
          | ok rest' =>
              rw [hrest] at h
              simp only [Except.map, Except.ok.injEq] at h
              subst h
              intro z hz
              rcases List.mem_cons.mp hz with rfl | hz
              · rfl
              · exact ih rest' hwfrest hrest z hz

/-- A well-formed AST has no empty export-variable statement. -/
theorem astWellFormedVars_spec (a : Ast) (h : astWellFormedVars a = true) :
    ∀ decls rq, Stmt.exportVars decls rq ∈ a → decls ≠ [] := by
  intro decls rq hmem hnil
  subst hnil
  have := List.all_eq_true.mp h _ hmem
  simp at this

/-- C2 amended.  A module with an empty inverse-dependency set is treated as having
*no* used exports at all: when `treeShakeExports` succeeds on it, every export
declaration (default, variable, function/class) has been removed from every output
item's tree — the opposite of being spared.  (The well-formedness hypothesis rules out
empty `export const;` statements, which are not JavaScript syntax; on a well-formed
multi-declarator export statement the pass instead throws Babel's removed-node
error.) -/
theorem no_inverse_all_export_decls_removed (g : Graph) (p : String) (m m' : Module)
    (hinv : m.inverseDependencies = [])
    (hwf : m.output.all (fun item => astWellFormedVars (item.data.ast.getD [])) = true)
    (hok : treeShakeExports g p m = .ok m') :
    m'.output.all (fun item => (item.data.ast.getD []).all
      (fun s => !(isExportDecl s))) = true := by
  unfold treeShakeExports at hok
  cases hmap : mapE (pruneOutputItem (usedPredicate g p m)) m.output with
  | error e => rw [hmap] at hok; exact absurd hok (by simp)
  | ok output =>
      rw [hmap] at hok
      simp only [Except.ok.injEq] at hok
      subst hok
      rw [List.all_eq_true]
      intro item' hmem'
      obtain ⟨item, hitem, hprune⟩ := mapE_ok_mem _ _ _ hmap item' hmem'
      obtain ⟨ast, ast', hast, hpr, rfl⟩ := pruneOutputItem_ok _ _ _ hprune
      simp only [Option.getD_some]
      rw [List.all_eq_true]
      intro s hs
      have hwfa : astWellFormedVars ast = true := by
        have := List.all_eq_true.mp hwf item hitem
        rw [hast] at this
        simpa using this
      have hfalse := pruneExportsAst_all_unused (usedPredicate g p m) ast ast'
        (usedPredicate_nil g p m hinv) (astWellFormedVars_spec ast hwfa) hpr s hs
      simp [hfalse]

/-- Witness for `no_inverse_all_export_decls_removed`: a concrete zero-inverse module
whose `export function dead` gets removed. -/
theorem no_inverse_all_export_decls_removed_witness :
    (⟨"/w2", [], [], [⟨"js/module", ⟨[], some [], none⟩⟩]⟩ : Module).output.all
      (fun item => (item.data.ast.getD []).all (fun s => !(isExportDecl s))) = true :=
  no_inverse_all_export_decls_removed []
    "/w2" ⟨"/w2", [], [], [⟨"js/module", ⟨[], some [Stmt.exportFun "dead" [] []], none⟩⟩]⟩
    ⟨"/w2", [], [], [⟨"js/module", ⟨[], some [], none⟩⟩]⟩ rfl (by decide) (by decide)

/-! ### Generic `mapE` lemmas -/

/-- Build a successful `mapE` from pointwise fixed points. -/
theorem mapE_of_pointwise {α : Type} (f : α → Except ShakeErr α) (l : List α)
    (h : ∀ x ∈ l, f x = .ok x) : mapE f l = .ok l := by
  induction l with
  | nil => rfl
  | cons x xs ih =>
      rw [mapE, h x (List.mem_cons_self _ _), ih (fun y hy => h y (List.mem_cons_of_mem _ hy))]
      rfl

/-- A `mapE` returning its input is pointwise a fixed point. -/
theorem mapE_self_pointwise {α : Type} (f : α → Except ShakeErr α) (l : List α)
    (h : mapE f l = .ok l) : ∀ x ∈ l, f x = .ok x := by
  induction l with
  | nil => intro x hx; simp at hx
  | cons x xs ih =>
      obtain ⟨y, ys, hfx, hrest, heq⟩ := mapE_cons_ok f x xs _ h
      obtain ⟨rfl, rfl⟩ : y = x ∧ ys = xs := by
        have := List.cons.inj heq
        exact ⟨this.1.symm, this.2.symm⟩
      intro z hz
      rcases List.mem_cons.mp hz with rfl | hz
      · exact hfx
      · exact ih hrest z hz

/-- If every output of `f` is itself a fixed point of `f`, a successful `mapE` output is
a `mapE` fixed point. -/
theorem mapE_ok_idem {α : Type} (f : α → Except ShakeErr α) (l l' : List α)
    (hidem : ∀ x y, f x = .ok y → f y = .ok y)
    (h : mapE f l = .ok l') : mapE f l' = .ok l' := by
  induction l generalizing l' with
  | nil =>
      rw [mapE] at h
      simp only [Except.ok.injEq] at h
      subst h; rfl
  | cons x xs ih =>
      obtain ⟨y, ys, hfx, hrest, rfl⟩ := mapE_cons_ok f x xs l' h
      rw [mapE, hidem x y hfx, ih ys hrest]
      rfl

/-- If `f` preserves an observation `B`, so does a successful `mapE` (for `List.any`). -/
theorem mapE_any_eq {α : Type} (f : α → Except ShakeErr α) (B : α → Bool)
    (l l' : List α) (hobs : ∀ x y, f x = .ok y → B y = B x)
    (h : mapE f l = .ok l') : l'.any B = l.any B := by
  induction l generalizing l' with
  | nil =>
      rw [mapE] at h
      simp only [Except.ok.injEq] at h
      subst h; rfl
  | cons x xs ih =>
      obtain ⟨y, ys, hfx, hrest, rfl⟩ := mapE_cons_ok f x xs l' h
      simp only [List.any_cons, hobs x y hfx, ih ys hrest]

/-- `mapE` preserves length. -/
theorem mapE_length {α : Type} (f : α → Except ShakeErr α) (l l' : List α)
    (h : mapE f l = .ok l') : l'.length = l.length := by
  induction l generalizing l' with
  | nil =>
      rw [mapE] at h
      simp only [Except.ok.injEq] at h
      subst h; rfl
  | cons x xs ih =>
      obtain ⟨y, ys, _, hrest, rfl⟩ := mapE_cons_ok f x xs l' h
      simp [ih ys hrest]

/-! ### Graph map lemmas -/

/-- A found module carries the looked-up path. -/
theorem graphGet_path (g : Graph) (p : String) (m : Module)
    (h : graphGet g p = some m) : m.path = p := by
  have := List.find?_some h
  exact of_decide_eq_true this

/-- A found module is a member of the graph. -/
theorem graphGet_mem (g : Graph) (p : String) (m : Module)
    (h : graphGet g p = some m) : m ∈ g :=
  List.mem_of_find?_eq_some h

/-- A found path is among the graph's keys. -/
theorem graphGet_mem_paths (g : Graph) (p : String) (m : Module)
    (h : graphGet g p = some m) : p ∈ g.map Module.path := by
  rw [← graphGet_path g p m h]
  exact List.mem_map_of_mem _ (graphGet_mem g p m h)

/-- Writing back the very module the map holds is a no-op. -/
theorem graphSet_self (g : Graph) (m : Module)
    (h : graphGet g m.path = some m) : graphSet g m = g := by
  induction g with
  | nil => rfl
  | cons x xs ih =>
      rw [graphSet]
      by_cases hx : x.path = m.path
      · have : x = m := by
          unfold graphGet at h
          rw [List.find?_cons_of_pos _ (by simp [hx])] at h
          exact (Option.some_inj.mp h)
        rw [if_pos hx, this]
      · rw [if_neg hx]
        unfold graphGet at h
        rw [List.find?_cons_of_neg _ (by simp [hx])] at h
        rw [ih h]

/-- Lookup after a write: the written key yields the new module (when previously
present); other keys are untouched. -/
theorem graphGet_graphSet (g : Graph) (m : Module) (q : String) :
    graphGet (graphSet g m) q =
      if q = m.path then (graphGet g q).map (fun _ => m) else graphGet g q := by
  induction g with
  | nil => simp [graphSet, graphGet]
  | cons x xs ih =>
      rw [graphSet]
      by_cases hx : x.path = m.path
      · rw [if_pos hx]
        by_cases hq : q = m.path
        · subst hq
          unfold graphGet
          rw [List.find?_cons_of_pos _ (by simp), List.find?_cons_of_pos _ (by simp [hx])]
          simp
        · unfold graphGet
          rw [List.find?_cons_of_neg _ (by simp; exact fun c => hq (c ▸ rfl)),
              List.find?_cons_of_neg _ (by simp; exact fun c => hq ((hx ▸ c) ▸ rfl))]
          rw [if_neg hq]
      · rw [if_neg hx]
        by_cases hxq : x.path = q
        · unfold graphGet
          rw [List.find?_cons_of_pos _ (by simp [hxq]), List.find?_cons_of_pos _ (by simp [hxq])]
          have hq : ¬ q = m.path := fun c => hx (hxq ▸ c)
          rw [if_neg hq]
        · unfold graphGet
          rw [List.find?_cons_of_neg _ (by simp [hxq]), List.find?_cons_of_neg _ (by simp [hxq])]
          exact ih

/-- Synchronizing a mapped object is the `graphSet`; when the object is its own map
entry this is a no-op. -/
theorem graphSync_self (g : Graph) (v : Module)
    (h : graphGet g v.path = some v) : graphSync g v = g := by
  unfold graphSync
  rw [h]
  simp only [Option.isSome_some, if_true]
  exact graphSet_self g v h

/-- Synchronizing an unmapped object is a no-op. -/
theorem graphSync_none (g : Graph) (v : Module)
    (h : graphGet g v.path = none) : graphSync g v = g := by
  unfold graphSync
  rw [h]
  rfl

/-- The refreshed loop object is either the map's entry for its path or unmapped. -/
theorem refresh_sound (g : Graph) (v : Module) :
    graphGet g ((graphGet g v.path).getD v).path = some ((graphGet g v.path).getD v) ∨
      graphGet g ((graphGet g v.path).getD v).path = none := by
  cases hv : graphGet g v.path with
  | none => right; simpa using hv
  | some w =>
      left
      have hpw : w.path = v.path := graphGet_path g _ w hv
      simp only [Option.getD_some]
      rw [hpw]
      exact hv

/-! ### Collect idempotence -/

/-- Inversion for `Except.map`. -/
theorem exceptMap_ok {α β : Type} (e : Except ShakeErr α) (f : α → β) (b : β)
    (h : e.map f = .ok b) : ∃ a, e = .ok a ∧ b = f a := by
  cases e with
  | error x => simp [Except.map] at h
  | ok a =>
      simp only [Except.map, Except.ok.injEq] at h
      exact ⟨a, rfl, h.symm⟩

/-- Chained version of `mapE_ok_idem` for two functions. -/
theorem mapE_ok_trans {α : Type} (f h : α → Except ShakeErr α) (l l' : List α)
    (hstep : ∀ x y, f x = .ok y → h y = .ok y)
    (hmap : mapE f l = .ok l') : mapE h l' = .ok l' := by
  induction l generalizing l' with
  | nil =>
      rw [mapE] at hmap
      simp only [Except.ok.injEq] at hmap
      subst hmap; rfl
  | cons x xs ih =>
      obtain ⟨y, ys, hfx, hrest, rfl⟩ := mapE_cons_ok f x xs l' hmap
      rw [mapE, hstep x y hfx, ih ys hrest]
      rfl

/-- `getGraphId` depends only on the module's dependency map. -/
theorem getGraphId_congr (v w : Module) (hdep : w.dependencies = v.dependencies)
    (s : String) : getGraphId w s = getGraphId v s := by
  unfold getGraphId
  rw [hdep]

/-- `recordImports` depends only on the module's dependency map. -/
theorem mapE_requires_congr (v w : Module) (hdep : w.dependencies = v.dependencies)
    (rc : List String) :
    mapE (fun src => do
      let key ← getGraphId w src
      Except.ok (⟨src, key, [], true⟩ : ImportRec)) rc =
    mapE (fun src => do
      let key ← getGraphId v src
      Except.ok (⟨src, key, [], true⟩ : ImportRec)) rc := by
  induction rc with
  | nil => rfl
  | cons r rs ihr => rw [mapE, mapE, getGraphId_congr v w hdep, ihr]

/-- The records depend on the module only through its dependency map. -/
theorem recordImports_congr (v w : Module) (hdep : w.dependencies = v.dependencies)
    (a : Ast) : recordImports w a = recordImports v a := by
  induction a with
  | nil => rfl
  | cons s rest ih =>
      cases s with
      | importDecl src specs =>
          rw [recordImports, recordImports, getGraphId_congr v w hdep, ih]
      | other u rc me oc =>
          rw [recordImports, recordImports, ih, mapE_requires_congr v w hdep rc]
      | exportDefault u rq =>
          rw [recordImports, recordImports, ih, mapE_requires_congr v w hdep rq]
      | exportVars decls rq =>
          rw [recordImports, recordImports, ih, mapE_requires_congr v w hdep rq]
      | exportFun name u rq =>
          rw [recordImports, recordImports, ih, mapE_requires_congr v w hdep rq]

/-- Inversion of `collectOutput` on success. -/
theorem collectOutput_ok (v : Module) (item item' : OutputItem)
    (h : collectOutput v item = .ok item') :
    ∃ recs, recordImports v (item.data.ast.getD item.data.code) = .ok recs ∧
      item' = { item with data := { item.data with
        ast := some (item.data.ast.getD item.data.code),
        modules := some ⟨recs, []⟩ } } := by
  unfold collectOutput at h
  split at h
  · exact absurd h (by simp)
  next recs hrec =>
    simp only [Except.ok.injEq] at h
    exact ⟨recs, hrec, h.symm⟩

/-- A collected output item is a fixed point of collecting, for any module with the
same dependency map. -/
theorem collectOutput_idem (v w : Module) (hdep : w.dependencies = v.dependencies)
    (item item' : OutputItem) (h : collectOutput v item = .ok item') :
    collectOutput w item' = .ok item' := by
  obtain ⟨recs, hrec, rfl⟩ := collectOutput_ok v item item' h
  unfold collectOutput
  simp only [Option.getD_some]
  rw [recordImports_congr v w hdep, hrec]

/-- Inversion of `collectModule` on success. -/
theorem collectModule_ok (m m' : Module) (h : collectModule m = .ok m') :
    m'.path = m.path ∧ m'.dependencies = m.dependencies ∧
    m'.inverseDependencies = m.inverseDependencies ∧
    mapE (collectOutput m) m.output = .ok m'.output := by
  unfold collectModule at h
  split at h
  · exact absurd h (by simp)
  next output hmap =>
    simp only [Except.ok.injEq] at h
    subst h
    exact ⟨rfl, rfl, rfl, hmap⟩

/-- A collected module is a fixed point of collecting. -/
theorem collectModule_idem (m m' : Module) (h : collectModule m = .ok m') :
    collectModule m' = .ok m' := by
  obtain ⟨hpath, hdep, hinv, hmap⟩ := collectModule_ok m m' h
  unfold collectModule
  rw [mapE_ok_trans (collectOutput m) (collectOutput m') m.output m'.output
    (fun x y hxy => collectOutput_idem m m' hdep x y hxy) hmap]

/-- A collected graph is a fixed point of collecting. -/
theorem collectAll_idem (g g₁ : Graph) (h : collectAll g = .ok g₁) :
    collectAll g₁ = .ok g₁ := by
  unfold collectAll at h ⊢
  exact mapE_ok_trans collectModule collectModule g g₁ collectModule_idem h

/-- A graph is collect-fresh iff each of its modules is a `collectModule` fixed point. -/
theorem collectAll_fix_iff (g : Graph) :
    collectAll g = .ok g ↔ ∀ m ∈ g, collectModule m = .ok m := by
  constructor
  · intro h
    exact mapE_self_pointwise collectModule g h
  · intro h
    exact mapE_of_pointwise collectModule g h

/-! ### Export pruning: idempotence and framing -/

/-- `List.any` over a mapped list. -/
theorem list_any_map {α β : Type} (f : α → β) (l : List α) (p : β → Bool) :
    (l.map f).any p = l.any (fun x => p (f x)) := by
  induction l with
  | nil => rfl
  | cons x xs ih => simp [List.any_cons, ih]

/-- Boolean `any` congruence over members. -/
theorem list_any_congr {α : Type} (l : List α) (p q : α → Bool)
    (h : ∀ x ∈ l, p x = q x) : l.any p = l.any q := by
  induction l with
  | nil => rfl
  | cons x xs ih =>
      simp only [List.any_cons, h x (List.mem_cons_self _ _),
        ih (fun y hy => h y (List.mem_cons_of_mem _ hy))]

/-- Export pruning is idempotent on an AST (under the same used-predicate). -/
theorem pruneExportsAst_idem (used : String → Bool) (a a' : Ast)
    (h : pruneExportsAst used a = .ok a') : pruneExportsAst used a' = .ok a' := by
  induction a generalizing a' with
  | nil =>
      rw [pruneExportsAst] at h
      simp only [Except.ok.injEq] at h
      subst h; rfl
  | cons s rest ih =>
      cases s with
      | exportDefault u rq =>
          rw [pruneExportsAst] at h
          by_cases hc : used "default"
          · rw [if_pos hc] at h
            obtain ⟨r', hr', rfl⟩ := exceptMap_ok _ _ _ h
            rw [pruneExportsAst, if_pos hc, ih r' hr']
            rfl
          · rw [if_neg hc] at h
            exact ih a' h
      | exportFun name u rq =>
          rw [pruneExportsAst] at h
          by_cases hc : used name
          · rw [if_pos hc] at h
            obtain ⟨r', hr', rfl⟩ := exceptMap_ok _ _ _ h
            rw [pruneExportsAst, if_pos hc, ih r' hr']
            rfl
          · rw [if_neg hc] at h
            exact ih a' h
      | exportVars decls rq =>
          simp only [pruneExportsAst] at h
          by_cases h2 : 2 ≤ (decls.filter (fun d => !(used d.name))).length
          · rw [if_pos h2] at h
            exact absurd h (by simp)
          · rw [if_neg h2] at h
            by_cases h1 : (decls.filter (fun d => !(used d.name))).length = 1
            · rw [if_pos h1] at h
              exact ih a' h
            · rw [if_neg h1] at h
              obtain ⟨r', hr', rfl⟩ := exceptMap_ok _ _ _ h
              simp only [pruneExportsAst]
              rw [if_neg h2, if_neg h1, ih r' hr']
              rfl
      | importDecl src specs =>
          rw [pruneExportsAst] at h
          obtain ⟨r', hr', rfl⟩ := exceptMap_ok _ _ _ h
          rw [pruneExportsAst, ih r' hr']
          rfl
      | other u rc me oc =>
          rw [pruneExportsAst] at h
          obtain ⟨r', hr', rfl⟩ := exceptMap_ok _ _ _ h
          rw [pruneExportsAst, ih r' hr']
          rfl

/-- `pruneOutputItem` changes only the `ast` field. -/
theorem pruneOutputItem_obs (used : String → Bool) (item item' : OutputItem)
    (h : pruneOutputItem used item = .ok item') :
    item'.type = item.type ∧ item'.data.modules = item.data.modules ∧
      item'.data.code = item.data.code := by
  obtain ⟨ast, ast', hast, hpr, rfl⟩ := pruneOutputItem_ok used item item' h
  exact ⟨rfl, rfl, rfl⟩

/-- `itemUsage` reads only the `type` and recorded `modules` of an item. -/
theorem itemUsage_congr (d n : String) (x y : OutputItem)
    (htype : y.type = x.type) (hmods : y.data.modules = x.data.modules) :
    itemUsage d n y = itemUsage d n x := by
  unfold itemUsage
  rw [htype, hmods]

/-- `pruneOutputItem` is idempotent. -/
theorem pruneOutputItem_idem (used : String → Bool) (item item' : OutputItem)
    (h : pruneOutputItem used item = .ok item') :
    pruneOutputItem used item' = .ok item' := by
  obtain ⟨ast, ast', hast, hpr, rfl⟩ := pruneOutputItem_ok used item item' h
  unfold pruneOutputItem
  simp only
  rw [pruneExportsAst_idem used ast ast' hpr]

/-- Inversion of `treeShakeExports` on success. -/
theorem treeShakeExports_ok (g : Graph) (p : String) (m m' : Module)
    (h : treeShakeExports g p m = .ok m') :
    mapE (pruneOutputItem (usedPredicate g p m)) m.output = .ok m'.output ∧
      m' = { m with output := m'.output } := by
  unfold treeShakeExports at h
  split at h
  · exact absurd h (by simp)
  next output hmap =>
    simp only [Except.ok.injEq] at h
    subst h
    exact ⟨hmap, rfl⟩

/-- Field preservation of `treeShakeExports`. -/
theorem treeShakeExports_fields (g : Graph) (p : String) (m m' : Module)
    (h : treeShakeExports g p m = .ok m') :
    m'.path = m.path ∧ m'.dependencies = m.dependencies ∧
      m'.inverseDependencies = m.inverseDependencies := by
  obtain ⟨-, heq⟩ := treeShakeExports_ok g p m m' h
  rw [heq]
  exact ⟨rfl, rfl, rfl⟩

/-- Export pruning preserves the usage a module contributes to `isExportUsed`
(it prunes ASTs, not the recorded `modules` metadata or output types). -/
theorem depUsage_pruned (g : Graph) (p : String) (value value' : Module)
    (h : treeShakeExports g p value = .ok value') :
    ∀ d n, depUsage d n (some value') = depUsage d n (some value) := by
  intro d n
  obtain ⟨hmap, heq⟩ := treeShakeExports_ok g p value value' h
  show value'.output.any (itemUsage d n) = value.output.any (itemUsage d n)
  exact mapE_any_eq (pruneOutputItem (usedPredicate g p value)) (itemUsage d n)
    value.output value'.output
    (fun x y hxy => itemUsage_congr d n x y (pruneOutputItem_obs _ x y hxy).1
      (pruneOutputItem_obs _ x y hxy).2.1)
    hmap

/-- `usedPredicate` ignores a write-back of an export-pruned module: pruning changes
no observation `isExportUsed` reads. -/
theorem usedPredicate_graphSet_pruned (g : Graph) (p : String) (value value' : Module)
    (hget : graphGet g p = some value)
    (hts : treeShakeExports g p value = .ok value') :
    ∀ d (w : Module) n, usedPredicate (graphSet g value') d w n = usedPredicate g d w n := by
  intro d w n
  unfold usedPredicate isExportUsed
  rw [list_any_map, list_any_map]
  apply list_any_congr
  intro id _
  rw [graphGet_graphSet]
  have hvp : value.path = p := graphGet_path g p value hget
  have hvp' : value'.path = value.path := (treeShakeExports_fields g p value value' hts).1
  by_cases hid : id = value'.path
  · rw [if_pos hid, hid, hvp', hvp, hget]
    simp only [Option.map_some']
    exact depUsage_pruned g p value value' hts d n
  · rw [if_neg hid]

/-! ### Import pruning: the no-removal case is the identity -/

/-- The `removed` flag is monotone: once `true`, the traversal reports `true`. -/
theorem removeImportsAst_mono (u : List String) (ast : List Stmt) (v : Module)
    (g : Graph) (t : Ast) (v' : Module) (g' : Graph) (r' : Bool)
    (h : removeImportsAst u ast v g true = .ok (t, v', g', r')) : r' = true := by
  induction ast generalizing v g t v' g' with
  | nil =>
      rw [removeImportsAst] at h
      simp only [Except.ok.injEq, Prod.mk.injEq] at h
      exact h.2.2.2.symm
  | cons s rest ih =>
      cases s with
      | importDecl src specs =>
          rw [removeImportsAst] at h
          split at h
          · exact absurd h (by simp)
          next specs' hf =>
            split at h
            · split at h
              · exact absurd h (by simp)
              next v1 g1 hd =>
                exact ih v1 g1 t v' g' h
            · split at h
              · exact absurd h (by simp)
              next t₀ v₀ g₀ r₀ hrec =>
                simp only [Except.ok.injEq, Prod.mk.injEq] at h
                obtain ⟨-, -, -, hr⟩ := h
                subst hr
                exact ih v g t₀ v₀ g₀ hrec
      | exportDefault uu rq =>
          rw [removeImportsAst] at h
          split at h
          · exact absurd h (by simp)
          next t₀ v₀ g₀ r₀ hrec =>
            simp only [Except.ok.injEq, Prod.mk.injEq] at h
            obtain ⟨-, -, -, hr⟩ := h
            subst hr
            exact ih v g t₀ v₀ g₀ hrec
      | exportVars decls rq =>
          rw [removeImportsAst] at h
          split at h
          · exact absurd h (by simp)
          next t₀ v₀ g₀ r₀ hrec =>
            simp only [Except.ok.injEq, Prod.mk.injEq] at h
            obtain ⟨-, -, -, hr⟩ := h
            subst hr
            exact ih v g t₀ v₀ g₀ hrec
      | exportFun name uu rq =>
          rw [removeImportsAst] at h
          split at h
          · exact absurd h (by simp)
          next t₀ v₀ g₀ r₀ hrec =>
            simp only [Except.ok.injEq, Prod.mk.injEq] at h
            obtain ⟨-, -, -, hr⟩ := h
            subst hr
            exact ih v g t₀ v₀ g₀ hrec
      | other uu rc me oc =>
          rw [removeImportsAst] at h
          split at h
          · exact absurd h (by simp)
          next t₀ v₀ g₀ r₀ hrec =>
            simp only [Except.ok.injEq, Prod.mk.injEq] at h
            obtain ⟨-, -, -, hr⟩ := h
            subst hr
            exact ih v g t₀ v₀ g₀ hrec

/-- A traversal that reports no removal leaves the module, the graph, and the incoming
flag untouched. -/
theorem removeImportsAst_false_frame (u : List String) (ast : List Stmt) (v : Module)
    (g : Graph) (t : Ast) (v' : Module) (g' : Graph) (r : Bool)
    (h : removeImportsAst u ast v g r = .ok (t, v', g', false)) :
    r = false ∧ v' = v ∧ g' = g := by
  induction ast generalizing v g t v' g' r with
  | nil =>
      rw [removeImportsAst] at h
      simp only [Except.ok.injEq, Prod.mk.injEq] at h
      exact ⟨h.2.2.2, h.2.1.symm, h.2.2.1.symm⟩
  | cons s rest ih =>
      cases s with
      | importDecl src specs =>
          rw [removeImportsAst] at h
          split at h
          · exact absurd h (by simp)
          next specs' hf =>
            split at h
            · split at h
              · exact absurd h (by simp)
              next v1 g1 hd =>
                exact absurd (removeImportsAst_mono u rest v1 g1 t v' g' false h)
                  (by simp)
            · split at h
              · exact absurd h (by simp)
              next t₀ v₀ g₀ r₀ hrec =>
                simp only [Except.ok.injEq, Prod.mk.injEq] at h
                obtain ⟨-, hv, hg, hr⟩ := h
                subst hr
                obtain ⟨hrfl, hv₀, hg₀⟩ := ih v g t₀ v₀ g₀ r hrec
                exact ⟨hrfl, hv ▸ hv₀, hg ▸ hg₀⟩
      | exportDefault uu rq =>
          rw [removeImportsAst] at h
          split at h
          · exact absurd h (by simp)
          next t₀ v₀ g₀ r₀ hrec =>
            simp only [Except.ok.injEq, Prod.mk.injEq] at h
            obtain ⟨-, hv, hg, hr⟩ := h
            subst hr
            obtain ⟨hrfl, hv₀, hg₀⟩ := ih v g t₀ v₀ g₀ r hrec
            exact ⟨hrfl, hv ▸ hv₀, hg ▸ hg₀⟩
      | exportVars decls rq =>
          rw [removeImportsAst] at h
          split at h
          · exact absurd h (by simp)
          next t₀ v₀ g₀ r₀ hrec =>
            simp only [Except.ok.injEq, Prod.mk.injEq] at h
            obtain ⟨-, hv, hg, hr⟩ := h
            subst hr
            obtain ⟨hrfl, hv₀, hg₀⟩ := ih v g t₀ v₀ g₀ r hrec
            exact ⟨hrfl, hv ▸ hv₀, hg ▸ hg₀⟩
      | exportFun name uu rq =>
          rw [removeImportsAst] at h
          split at h
          · exact absurd h (by simp)
          next t₀ v₀ g₀ r₀ hrec =>
            simp only [Except.ok.injEq, Prod.mk.injEq] at h
            obtain ⟨-, hv, hg, hr⟩ := h
            subst hr
            obtain ⟨hrfl, hv₀, hg₀⟩ := ih v g t₀ v₀ g₀ r hrec
            exact ⟨hrfl, hv ▸ hv₀, hg ▸ hg₀⟩
      | other uu rc me oc =>
          rw [removeImportsAst] at h
          split at h
          · exact absurd h (by simp)
          next t₀ v₀ g₀ r₀ hrec =>
            simp only [Except.ok.injEq, Prod.mk.injEq] at h
            obtain ⟨-, hv, hg, hr⟩ := h
            subst hr
            obtain ⟨hrfl, hv₀, hg₀⟩ := ih v g t₀ v₀ g₀ r hrec
            exact ⟨hrfl, hv ▸ hv₀, hg ▸ hg₀⟩

/-- With no unused names, the specifier filter keeps everything (or throws). -/
theorem filterSpecifiers_nil (specs specs' : List AstSpec)
    (h : filterSpecifiers [] specs = .ok specs') : specs' = specs := by
  induction specs generalizing specs' with
  | nil =>
      rw [filterSpecifiers] at h
      simp only [Except.ok.injEq] at h
      exact h.symm
  | cons sp sps ih =>
      rw [filterSpecifiers] at h
      cases hsp : sp.imported with
      | none => rw [hsp] at h; exact absurd h (by simp)
      | some name =>
          rw [hsp] at h
          simp only [List.contains_nil, Bool.false_eq_true, if_false] at h
          obtain ⟨r', hr', rfl⟩ := exceptMap_ok _ _ _ h
          rw [ih r' hr']

/-- With no unused names and no removal reported, the traversal returns the AST
unchanged. -/
theorem removeImportsAst_nil_ast (ast : List Stmt) (v : Module) (g : Graph)
    (t : Ast) (v' : Module) (g' : Graph)
    (h : removeImportsAst [] ast v g false = .ok (t, v', g', false)) : t = ast := by
  induction ast generalizing v g t v' g' with
  | nil =>
      rw [removeImportsAst] at h
      simp only [Except.ok.injEq, Prod.mk.injEq] at h
      exact h.1.symm
  | cons s rest ih =>
      cases s with
      | importDecl src specs =>
          rw [removeImportsAst] at h
          split at h
          · exact absurd h (by simp)
          next specs' hf =>
            obtain rfl := filterSpecifiers_nil specs specs' hf
            split at h
            · split at h
              · exact absurd h (by simp)
              next v1 g1 hd =>
                exact absurd (removeImportsAst_mono [] rest v1 g1 t v' g' false h) (by simp)
            · split at h
              · exact absurd h (by simp)
              next t₀ v₀ g₀ r₀ hrec =>
                simp only [Except.ok.injEq, Prod.mk.injEq] at h
                obtain ⟨ht, -, -, hr⟩ := h
                subst hr
                rw [← ht, ih v g t₀ v₀ g₀ hrec]
      | exportDefault uu rq =>
          rw [removeImportsAst] at h
          split at h
          · exact absurd h (by simp)
          next t₀ v₀ g₀ r₀ hrec =>
            simp only [Except.ok.injEq, Prod.mk.injEq] at h
            obtain ⟨ht, -, -, hr⟩ := h
            subst hr
            rw [← ht, ih v g t₀ v₀ g₀ hrec]
      | exportVars decls rq =>
          rw [removeImportsAst] at h
          split at h
          · exact absurd h (by simp)
          next t₀ v₀ g₀ r₀ hrec =>
            simp only [Except.ok.injEq, Prod.mk.injEq] at h
            obtain ⟨ht, -, -, hr⟩ := h
            subst hr
            rw [← ht, ih v g t₀ v₀ g₀ hrec]
      | exportFun name uu rq =>
          rw [removeImportsAst] at h
          split at h
          · exact absurd h (by simp)
          next t₀ v₀ g₀ r₀ hrec =>
            simp only [Except.ok.injEq, Prod.mk.injEq] at h
            obtain ⟨ht, -, -, hr⟩ := h
            subst hr
            rw [← ht, ih v g t₀ v₀ g₀ hrec]
      | other uu rc me oc =>
          rw [removeImportsAst] at h
          split at h
          · exact absurd h (by simp)
          next t₀ v₀ g₀ r₀ hrec =>
            simp only [Except.ok.injEq, Prod.mk.injEq] at h
            obtain ⟨ht, -, -, hr⟩ := h
            subst hr
            rw [← ht, ih v g t₀ v₀ g₀ hrec]

/-- A no-removal traversal never reads the module or the graph: its result transfers
to any other module/graph pair. -/
theorem removeImportsAst_transfer (u : List String) (ast : List Stmt) (v : Module)
    (g : Graph) (t : Ast)
    (h : removeImportsAst u ast v g false = .ok (t, v, g, false)) :
    ∀ (v₂ : Module) (g₂ : Graph), removeImportsAst u ast v₂ g₂ false = .ok (t, v₂, g₂, false) := by
  induction ast generalizing v g t with
  | nil =>
      intro v₂ g₂
      rw [removeImportsAst] at h ⊢
      simp only [Except.ok.injEq, Prod.mk.injEq] at h
      rw [← h.1]
  | cons s rest ih =>
      intro v₂ g₂
      cases s with
      | importDecl src specs =>
          rw [removeImportsAst] at h ⊢
          split at h
          · exact absurd h (by simp)
          next specs' hf =>
            split at h
            next hemp =>
              split at h
              · exact absurd h (by simp)
              next v1 g1 hd =>
                exact absurd (removeImportsAst_mono u rest v1 g1 t v g false h) (by simp)
            next hemp =>
              rw [if_neg hemp]
              split at h
              · exact absurd h (by simp)
              next t₀ v₀ g₀ r₀ hrec =>
                simp only [Except.ok.injEq, Prod.mk.injEq] at h
                obtain ⟨ht, hv, hg, hr⟩ := h
                subst hr
                rw [hv, hg] at hrec
                rw [ih v g t₀ hrec v₂ g₂, ← ht]
      | exportDefault uu rq =>
          rw [removeImportsAst] at h ⊢
          split at h
          · exact absurd h (by simp)
          next t₀ v₀ g₀ r₀ hrec =>
            simp only [Except.ok.injEq, Prod.mk.injEq] at h
            obtain ⟨ht, hv, hg, hr⟩ := h
            subst hr
            rw [hv, hg] at hrec
            rw [ih v g t₀ hrec v₂ g₂, ← ht]
      | exportVars decls rq =>
          rw [removeImportsAst] at h ⊢
          split at h
          · exact absurd h (by simp)
          next t₀ v₀ g₀ r₀ hrec =>
            simp only [Except.ok.injEq, Prod.mk.injEq] at h
            obtain ⟨ht, hv, hg, hr⟩ := h
            subst hr
            rw [hv, hg] at hrec
            rw [ih v g t₀ hrec v₂ g₂, ← ht]
      | exportFun name uu rq =>
          rw [removeImportsAst] at h ⊢
          split at h
          · exact absurd h (by simp)
          next t₀ v₀ g₀ r₀ hrec =>
            simp only [Except.ok.injEq, Prod.mk.injEq] at h
            obtain ⟨ht, hv, hg, hr⟩ := h
            subst hr
            rw [hv, hg] at hrec
            rw [ih v g t₀ hrec v₂ g₂, ← ht]
      | other uu rc me oc =>
          rw [removeImportsAst] at h ⊢
          split at h
          · exact absurd h (by simp)
          next t₀ v₀ g₀ r₀ hrec =>
            simp only [Except.ok.injEq, Prod.mk.injEq] at h
            obtain ⟨ht, hv, hg, hr⟩ := h
            subst hr
            rw [hv, hg] at hrec
            rw [ih v g t₀ hrec v₂ g₂, ← ht]

/-- Writing an item's own AST back is a no-op. -/
theorem setAstAt_self (l : List OutputItem) (idx : Nat) (item : OutputItem) (ast : Ast)
    (hget : l.get? idx = some item) (hast : item.data.ast = some ast) :
    setAstAt l idx ast = l := by
  induction l generalizing idx with
  | nil => simp at hget
  | cons x xs ih =>
      cases idx with
      | zero =>
          simp only [List.get?_cons_zero, Option.some_inj] at hget
          subst hget
          rw [setAstAt]
          congr 1
          rw [← hast]
      | succ n =>
          simp only [List.get?_cons_succ] at hget
          rw [setAstAt, ih n hget]

/-- Inversion of `removeUnusedImports` on success. -/
theorem removeUnusedImports_ok (value : Module) (idx : Nat) (g : Graph)
    (res : Module × Graph × Bool) (h : removeUnusedImports value idx g = .ok res) :
    ∃ item ast t v' g',
      value.output.get? idx = some item ∧ item.data.ast = some ast ∧
      removeImportsAst (unusedImportsOf ast) ast value g
        (!(unusedImportsOf ast).isEmpty) = .ok (t, v', g', res.2.2) ∧
      res = (setOutputAst v' idx t, g', res.2.2) := by
  unfold removeUnusedImports at h
  split at h
  · exact absurd h (by simp)
  next item hitem =>
    split at h
    · exact absurd h (by simp)
    next ast hast =>
      split at h
      · exact absurd h (by simp)
      next t v' g' removed hrem =>
        simp only [Except.ok.injEq] at h
        subst h
        exact ⟨item, ast, t, v', g', hitem, hast, hrem, rfl⟩

/-- A successful `removeUnusedImports` call was within the output range. -/
theorem removeUnusedImports_idx (value : Module) (idx : Nat) (g : Graph)
    (res : Module × Graph × Bool) (h : removeUnusedImports value idx g = .ok res) :
    idx < value.output.length := by
  obtain ⟨item, _, _, _, _, hitem, -⟩ := removeUnusedImports_ok value idx g res h
  exact List.get?_eq_some.mp hitem |>.1

/-- Import pruning that reports no removal is the identity on the module and graph. -/
theorem removeUnusedImports_false (value : Module) (idx : Nat) (g : Graph)
    (v' : Module) (g' : Graph)
    (h : removeUnusedImports value idx g = .ok (v', g', false)) :
    v' = value ∧ g' = g := by
  obtain ⟨item, ast, t, v₀, g₀, hitem, hast, hrem, heq⟩ :=
    removeUnusedImports_ok value idx g (v', g', false) h
  simp only [Prod.mk.injEq] at heq
  obtain ⟨hv', hg', -⟩ := heq
  obtain ⟨hr0, hv₀, hg₀⟩ :=
    removeImportsAst_false_frame _ ast value g t v₀ g₀ _ hrem
  have hu : unusedImportsOf ast = [] := by
    have hemp : (unusedImportsOf ast).isEmpty = true := by
      cases hemp : (unusedImportsOf ast).isEmpty
      · rw [hemp] at hr0; simp at hr0
      · rfl
    exact List.isEmpty_iff.mp hemp
  rw [hu] at hrem
  simp only [List.isEmpty_nil, Bool.not_true] at hrem
  have hast' : t = ast := removeImportsAst_nil_ast ast value g t v₀ g₀ hrem
  constructor
  · rw [hv', hv₀, hast', setOutputAst,
      setAstAt_self value.output idx item ast hitem hast]
  · rw [hg', hg₀]

/-- A no-removal `removeUnusedImports` outcome transfers to any other graph. -/
theorem removeUnusedImports_transfer (value : Module) (idx : Nat) (g : Graph)
    (h : removeUnusedImports value idx g = .ok (value, g, false)) :
    ∀ g₂ : Graph, removeUnusedImports value idx g₂ = .ok (value, g₂, false) := by
  intro g₂
  obtain ⟨item, ast, t, v₀, g₀, hitem, hast, hrem, heq⟩ :=
    removeUnusedImports_ok value idx g (value, g, false) h
  obtain ⟨hr0, hv₀, hg₀⟩ :=
    removeImportsAst_false_frame _ ast value g t v₀ g₀ _ hrem
  have hu : unusedImportsOf ast = [] := by
    have hemp : (unusedImportsOf ast).isEmpty = true := by
      cases hemp : (unusedImportsOf ast).isEmpty
      · rw [hemp] at hr0; simp at hr0
      · rfl
    exact List.isEmpty_iff.mp hemp
  rw [hu] at hrem
  simp only [List.isEmpty_nil, Bool.not_true] at hrem
  rw [hv₀, hg₀] at hrem
  have hast' : t = ast := removeImportsAst_nil_ast ast value g t value g hrem
  rw [hast'] at hrem
  have htrans := removeImportsAst_transfer [] ast value g ast hrem value g₂
  unfold removeUnusedImports
  simp only [hitem, hast, hu, List.isEmpty_nil, Bool.not_true]
  rw [htrans]
  simp only [Except.ok.injEq]
  rw [setOutputAst, setAstAt_self value.output idx item ast hitem hast]

/-! ### Transporting fixedness across an export-prune write-back -/

/-- `usedPredicate` only reads the module's inverse-dependency list. -/
theorem usedPredicate_congr_inverse (g : Graph) (d : String) (v w : Module)
    (hinv : w.inverseDependencies = v.inverseDependencies) :
    usedPredicate g d w = usedPredicate g d v := by
  funext n
  unfold usedPredicate
  rw [hinv]

/-- `treeShakeExports` depends on the graph and key only through `usedPredicate`. -/
theorem treeShakeExports_congr (g₁ g₂ : Graph) (d₁ d₂ : String) (m : Module)
    (hpred : usedPredicate g₂ d₂ m = usedPredicate g₁ d₁ m) :
    treeShakeExports g₂ d₂ m = treeShakeExports g₁ d₁ m := by
  unfold treeShakeExports
  rw [hpred]

/-- An export-pruned module is a fixed point of export pruning under any graph/key
presenting the same used-predicate. -/
theorem treeShakeExports_fixed_of (g : Graph) (p : String) (m m' : Module)
    (h : treeShakeExports g p m = .ok m')
    (g₂ : Graph) (p₂ : String)
    (hpred : usedPredicate g₂ p₂ m' = usedPredicate g p m) :
    treeShakeExports g₂ p₂ m' = .ok m' := by
  obtain ⟨hmap, heq⟩ := treeShakeExports_ok g p m m' h
  unfold treeShakeExports
  rw [hpred]
  rw [mapE_ok_trans (pruneOutputItem (usedPredicate g p m))
    (pruneOutputItem (usedPredicate g p m)) m.output m'.output
    (fun x y hxy => pruneOutputItem_idem _ x y hxy) hmap]

/-- Dropping a require-free `export default` statement leaves the records unchanged. -/
theorem recordImports_exportDefault_nil (v : Module) (u : List String) (rest : Ast) :
    recordImports v (.exportDefault u [] :: rest) = recordImports v rest := by
  have h1 : recordImports v (.exportDefault u [] :: rest)
      = (recordImports v rest).bind (fun tail => Except.ok tail) := rfl
  rw [h1]
  cases recordImports v rest <;> rfl

/-- Dropping a require-free `export const/let/var` statement leaves the records
unchanged. -/
theorem recordImports_exportVars_nil (v : Module) (decls : List VarDecl) (rest : Ast) :
    recordImports v (.exportVars decls [] :: rest) = recordImports v rest := by
  have h1 : recordImports v (.exportVars decls [] :: rest)
      = (recordImports v rest).bind (fun tail => Except.ok tail) := rfl
  rw [h1]
  cases recordImports v rest <;> rfl

/-- Dropping a require-free `export function/class` statement leaves the records
unchanged. -/
theorem recordImports_exportFun_nil (v : Module) (name : String) (u : List String)
    (rest : Ast) :
    recordImports v (.exportFun name u [] :: rest) = recordImports v rest := by
  have h1 : recordImports v (.exportFun name u [] :: rest)
      = (recordImports v rest).bind (fun tail => Except.ok tail) := rfl
  rw [h1]
  cases recordImports v rest <;> rfl

/-- Export pruning preserves the recorded import structure of an AST whose export
declarations carry no `require(...)` calls.  (Without that proviso it is false: pruning
an export declaration that contains a `require` also drops its `cjs` record on the next
collection.) -/
theorem recordImports_prune (used : String → Bool) (a a' : Ast)
    (hfree : astReqFree a = true)
    (h : pruneExportsAst used a = .ok a') :
    ∀ v : Module, recordImports v a' = recordImports v a := by
  induction a generalizing a' with
  | nil =>
      rw [pruneExportsAst] at h
      simp only [Except.ok.injEq] at h
      subst h
      intro v; rfl
  | cons s rest ih =>
      intro v
      rw [astReqFree, List.all_cons, Bool.and_eq_true] at hfree
      obtain ⟨hhd, hrest⟩ := hfree
      cases s with
      | exportDefault u rq =>
          obtain rfl : rq = [] := by
            simpa [exportRequiresOf] using hhd
          rw [pruneExportsAst] at h
          by_cases hc : used "default"
          · rw [if_pos hc] at h
            obtain ⟨r', hr', rfl⟩ := exceptMap_ok _ _ _ h
            rw [recordImports, recordImports, ih r' hrest hr' v]
          · rw [if_neg hc] at h
            rw [recordImports_exportDefault_nil, ih a' hrest h v]
      | exportFun name u rq =>
          obtain rfl : rq = [] := by
            simpa [exportRequiresOf] using hhd
          rw [pruneExportsAst] at h
          by_cases hc : used name
          · rw [if_pos hc] at h
            obtain ⟨r', hr', rfl⟩ := exceptMap_ok _ _ _ h
            rw [recordImports, recordImports, ih r' hrest hr' v]
          · rw [if_neg hc] at h
            rw [recordImports_exportFun_nil, ih a' hrest h v]
      | exportVars decls rq =>
          obtain rfl : rq = [] := by
            simpa [exportRequiresOf] using hhd
          simp only [pruneExportsAst] at h
          by_cases h2 : 2 ≤ (decls.filter (fun d => !(used d.name))).length
          · rw [if_pos h2] at h
            exact absurd h (by simp)
          · rw [if_neg h2] at h
            by_cases h1 : (decls.filter (fun d => !(used d.name))).length = 1
            · rw [if_pos h1] at h
              rw [recordImports_exportVars_nil, ih a' hrest h v]
            · rw [if_neg h1] at h
              obtain ⟨r', hr', rfl⟩ := exceptMap_ok _ _ _ h
              rw [recordImports, recordImports, ih r' hrest hr' v]
      | importDecl src specs =>
          rw [pruneExportsAst] at h
          obtain ⟨r', hr', rfl⟩ := exceptMap_ok _ _ _ h
          rw [recordImports, recordImports, ih r' hrest hr' v]
      | other u rc me oc =>
          rw [pruneExportsAst] at h
          obtain ⟨r', hr', rfl⟩ := exceptMap_ok _ _ _ h
          rw [recordImports, recordImports, ih r' hrest hr' v]

/-- A collected output item with require-free exports stays collected after export
pruning (for a module with the same dependency map). -/
theorem collectOutput_after_prune (v w : Module) (used : String → Bool)
    (hdep : w.dependencies = v.dependencies)
    (item item' : OutputItem)
    (hfree : itemReqFree item = true)
    (hcoll : collectOutput v item = .ok item)
    (hprune : pruneOutputItem used item = .ok item') :
    collectOutput w item' = .ok item' := by
  obtain ⟨ast, ast', hast, hpr, rfl⟩ := pruneOutputItem_ok used item item' hprune
  obtain ⟨recs, hrec, hitem⟩ := collectOutput_ok v item item hcoll
  have hmods : item.data.modules = some ⟨recs, []⟩ := by
    conv_lhs => rw [hitem]
  have heff : item.data.ast.getD item.data.code = ast := by rw [hast]; rfl
  have hfa : astReqFree ast = true := by
    unfold itemReqFree at hfree
    rw [heff] at hfree
    exact hfree
  rw [heff] at hrec
  unfold collectOutput
  simp only [Option.getD_some]
  rw [recordImports_congr v w hdep, recordImports_prune used ast ast' hfa hpr v, hrec]
  simp only [Except.ok.injEq]
  rw [hmods]

/-- Successful `mapE` as a pointwise relation. -/
theorem mapE_ok_forall2 {α β : Type} (f : α → Except ShakeErr β) (l : List α)
    (l' : List β) (h : mapE f l = .ok l') :
    List.Forall₂ (fun x y => f x = .ok y) l l' := by
  induction l generalizing l' with
  | nil =>
      rw [mapE] at h
      simp only [Except.ok.injEq] at h
      subst h
      exact List.Forall₂.nil
  | cons x xs ih =>
      obtain ⟨y, ys, hfx, hrest, rfl⟩ := mapE_cons_ok f x xs l' h
      exact List.Forall₂.cons hfx (ih ys hrest)

/-- Right members of a `Forall₂` relation are images of left members. -/
theorem forall2_mem_right {α β : Type} (R : α → β → Prop) (l : List α) (l' : List β)
    (h : List.Forall₂ R l l') : ∀ y ∈ l', ∃ x ∈ l, R x y := by
  induction h with
  | nil => intro y hy; simp at hy
  | cons hxy htail ih =>
      intro y hy
      rcases List.mem_cons.mp hy with rfl | hy'
      · exact ⟨_, List.mem_cons_self _ _, hxy⟩
      · obtain ⟨x, hx, hR⟩ := ih y hy'
        exact ⟨x, List.mem_cons_of_mem _ hx, hR⟩

/-- Members of a graph after a write-back. -/
theorem graphSet_mem (g : Graph) (m x : Module) (h : x ∈ graphSet g m) :
    x = m ∨ x ∈ g := by
  induction g with
  | nil => rw [graphSet] at h; simp at h
  | cons y ys ih =>
      rw [graphSet] at h
      by_cases hy : y.path = m.path
      · rw [if_pos hy] at h
        rcases List.mem_cons.mp h with rfl | hx
        · exact Or.inl rfl
        · exact Or.inr (List.mem_cons_of_mem _ hx)
      · rw [if_neg hy] at h
        rcases List.mem_cons.mp h with rfl | hx
        · exact Or.inr (List.mem_cons_self _ _)
        · rcases ih hx with hx' | hx'
          · exact Or.inl hx'
          · exact Or.inr (List.mem_cons_of_mem _ hx')

/-- Collect-freshness survives writing back an export-pruned module whose export
declarations are require-free. -/
theorem collectAll_fix_graphSet_pruned (g : Graph) (p : String) (value value' : Module)
    (hfree : moduleReqFree value = true)
    (hfix : collectAll g = .ok g)
    (hget : graphGet g p = some value)
    (hts : treeShakeExports g p value = .ok value') :
    collectAll (graphSet g value') = .ok (graphSet g value') := by
  rw [collectAll_fix_iff]
  intro m hm
  rcases graphSet_mem g value' m hm with rfl | hm'
  · -- the pruned module itself
    obtain ⟨hmap, heq⟩ := treeShakeExports_ok g p value m hts
    have hdep : m.dependencies = value.dependencies := by rw [heq]
    have hcm : collectModule value = .ok value :=
      (collectAll_fix_iff g).mp hfix value (graphGet_mem g p value hget)
    obtain ⟨-, -, -, hcmap⟩ := collectModule_ok value value hcm
    have hpoint := mapE_self_pointwise (collectOutput value) value.output hcmap
    have hrel := mapE_ok_forall2 _ _ _ hmap
    unfold collectModule
    have : mapE (collectOutput m) m.output = .ok m.output := by
      apply mapE_of_pointwise
      intro y hy
      obtain ⟨x, hx, hxy⟩ := forall2_mem_right _ _ _ hrel y hy
      have hxf : itemReqFree x = true := by
        unfold moduleReqFree at hfree
        exact List.all_eq_true.mp hfree x hx
      exact collectOutput_after_prune value m _ hdep x y hxf (hpoint x hx) hxy
    rw [this]
  · exact (collectAll_fix_iff g).mp hfix m hm'

/-- Step-fixedness of an untouched module survives writing back an export-pruned
module. -/
theorem stepFixed_graphSet_pruned (g : Graph) (p : String) (value value' : Module)
    (hget : graphGet g p = some value)
    (hts : treeShakeExports g p value = .ok value')
    (m : Module) (hsf : StepFixed g m) : StepFixed (graphSet g value') m := by
  constructor
  · apply treeShakeExports_fixed_of g m.path m m hsf.1 (graphSet g value') m.path
    funext n
    exact usedPredicate_graphSet_pruned g p value value' hget hts m.path m n
  · intro idx hidx
    exact removeUnusedImports_transfer m idx g (hsf.2 idx hidx) (graphSet g value')

/-! ### The second run of `treeShakeAll` on a fixed point is a no-op -/

/-- The output loop is a no-op on a step-fixed module. -/
theorem shakeOutputs_noop (R : Graph → Except ShakeErr Graph) (rem idx : Nat)
    (v : Module) (g : Graph)
    (hget : graphGet g v.path = some v)
    (hsteps : ∀ j, j < v.output.length → removeUnusedImports v j g = .ok (v, g, false))
    (hle : idx + rem ≤ v.output.length) :
    shakeOutputs R rem idx v g = .ok g := by
  induction rem generalizing idx with
  | zero => rfl
  | succ rem ih =>
      rw [shakeOutputs, hsteps idx (by omega)]
      simp only [Bool.false_eq_true, if_false]
      rw [graphSync_self g v hget]
      exact ih (idx + 1) (by omega)

/-- The module loop is a no-op on a pass-fixed graph. -/
theorem shakeModules_noop (R : Graph → Except ShakeErr Graph) (rest : List String)
    (g : Graph)
    (hsf : ∀ p m, graphGet g p = some m → StepFixed g m) :
    shakeModules R rest g = .ok g := by
  induction rest with
  | nil => rfl
  | cons p rest ih =>
      rw [shakeModules]
      cases hget : graphGet g p with
      | none => exact ih
      | some value =>
          have hvp : value.path = p := graphGet_path g p value hget
          have hsfv := hsf p value hget
          have hts : treeShakeExports g p value = .ok value := by
            rw [← hvp]; exact hsfv.1
          have hgetv : graphGet g value.path = some value := by rw [hvp]; exact hget
          have hout : shakeOutputs R value.output.length 0 value (graphSet g value)
              = .ok g := by
            rw [graphSet_self g value hgetv]
            exact shakeOutputs_noop R value.output.length 0 value g hgetv hsfv.2
              (by omega)
          simp only [hts, hout]
          exact ih

/-- On a pass-fixed graph, `treeShakeAll` is a no-op (with any fuel for a single
pass). -/
theorem treeShakeAll_second_run (g : Graph) (hpf : PassFixed g) (fuel : Nat) :
    treeShakeAll (fuel + 1) g = .ok g := by
  rw [treeShakeAll, hpf.1]
  exact shakeModules_noop (treeShakeAll fuel) (g.map Module.path) g
    (fun p m hget => hpf.2 p m hget)

/-! ### A successful run of `treeShakeAll` reaches a pass-fixed graph -/

/-- Export pruning is idempotent across the write-back: the pruned module is a
fixed point of `treeShakeExports` in the updated graph. -/
theorem treeShakeExports_step_idem (g : Graph) (p : String) (value value' : Module)
    (hget : graphGet g p = some value)
    (hts : treeShakeExports g p value = .ok value') :
    treeShakeExports (graphSet g value') p value' = .ok value' := by
  apply treeShakeExports_fixed_of g p value value' hts (graphSet g value') p
  have hinv : value'.inverseDependencies = value.inverseDependencies :=
    (treeShakeExports_fields g p value value' hts).2.2
  have h1 : usedPredicate g p value' = usedPredicate g p value :=
    usedPredicate_congr_inverse g p value value' hinv
  funext n
  rw [usedPredicate_graphSet_pruned g p value value' hget hts p value' n]
  rw [h1]

/-! ### The import-size measure strictly decreases on every reported removal (C7) -/

/-- The weight of a cons graph. -/
theorem graphWeight_cons (x : Module) (t : Graph) :
    graphWeight (x :: t) = moduleWeight x + graphWeight t := by
  simp [graphWeight]

/-- Deleting the written key after a write-back is the same as deleting it before. -/
theorem graphDelete_graphSet_self (g : Graph) (w : Module) :
    graphDelete (graphSet g w) w.path = graphDelete g w.path := by
  induction g with
  | nil => rfl
  | cons x xs ih =>
      rw [graphSet]
      by_cases hx : x.path = w.path
      · rw [if_pos hx]
        unfold graphDelete
        rw [List.filter_cons, List.filter_cons]
        have h1 : (w.path != w.path) = false := by simp
        have h2 : (x.path != w.path) = false := by simp [hx]
        rw [h1, h2]
        simp only [Bool.false_eq_true, if_false]
      · rw [if_neg hx]
        unfold graphDelete
        rw [List.filter_cons, List.filter_cons]
        have h2 : (x.path != w.path) = true := by simp [hx]
        rw [h2]
        simp only [if_true]
        show x :: graphDelete (graphSet xs w) w.path = x :: graphDelete xs w.path
        rw [ih]

/-- Deleting a key never increases the graph weight. -/
theorem graphWeight_graphDelete_le (g : Graph) (p : String) :
    graphWeight (graphDelete g p) ≤ graphWeight g := by
  induction g with
  | nil => exact Nat.le_refl 0
  | cons x xs ih =>
      unfold graphDelete at ih ⊢
      rw [List.filter_cons]
      by_cases hx : (x.path != p) = true
      · rw [if_pos hx]
        rw [graphWeight_cons, graphWeight_cons]
        exact Nat.add_le_add_left ih _
      · rw [if_neg hx]
        refine Nat.le_trans ih ?_
        rw [graphWeight_cons]
        exact Nat.le_add_left _ _

/-- Two deletions commute. -/
theorem graphDelete_graphDelete_comm (g : Graph) (p q : String) :
    graphDelete (graphDelete g q) p = graphDelete (graphDelete g p) q := by
  induction g with
  | nil => rfl
  | cons x xs ih =>
      unfold graphDelete at ih ⊢
      rw [List.filter_cons]
      by_cases hq : (x.path != q) = true
      · rw [if_pos hq, List.filter_cons]
        by_cases hp : (x.path != p) = true
        · rw [if_pos hp, List.filter_cons, if_pos hp, List.filter_cons, if_pos hq, ih]
        · rw [if_neg hp, List.filter_cons, if_neg hp, ih]
      · rw [if_neg hq, List.filter_cons]
        by_cases hp : (x.path != p) = true
        · rw [if_pos hp, List.filter_cons, if_neg hq, ih]
        · rw [if_neg hp, ih]

/-- Deleting the same key twice is the same as deleting it once. -/
theorem graphDelete_graphDelete_self (g : Graph) (p : String) :
    graphDelete (graphDelete g p) p = graphDelete g p := by
  induction g with
  | nil => rfl
  | cons x xs ih =>
      unfold graphDelete at ih ⊢
      rw [List.filter_cons]
      by_cases hp : (x.path != p) = true
      · rw [if_pos hp, List.filter_cons, if_pos hp, ih]
      · rw [if_neg hp, ih]

/-- Writing back a module of the same weight as the mapped one preserves the weight of
any deletion. -/
theorem graphWeight_graphDelete_graphSet (g : Graph) (w w₀ : Module) (p : String)
    (hget : graphGet g w.path = some w₀) (hw : moduleWeight w = moduleWeight w₀) :
    graphWeight (graphDelete (graphSet g w) p) = graphWeight (graphDelete g p) := by
  induction g with
  | nil => rfl
  | cons x xs ih =>
      rw [graphSet]
      by_cases hx : x.path = w.path
      · rw [if_pos hx]
        have hx0 : w₀ = x := by
          unfold graphGet at hget
          rw [List.find?_cons_of_pos _ (by simp [hx])] at hget
          simp only [Option.some.injEq] at hget
          exact hget.symm
        unfold graphDelete
        rw [List.filter_cons, List.filter_cons]
        by_cases hp : (x.path != p) = true
        · have hp' : (w.path != p) = true := by rw [← hx]; exact hp
          rw [if_pos hp, if_pos hp']
          rw [graphWeight_cons, graphWeight_cons]
          rw [hw, hx0]
        · have hp' : ¬(w.path != p) = true := by rw [← hx]; exact hp
          rw [if_neg hp, if_neg hp']
      · rw [if_neg hx]
        have hget' : graphGet xs w.path = some w₀ := by
          unfold graphGet at hget
          rw [List.find?_cons_of_neg _ (by simp [hx])] at hget
          exact hget
        unfold graphDelete
        rw [List.filter_cons, List.filter_cons]
        by_cases hp : (x.path != p) = true
        · rw [if_pos hp, if_pos hp]
          rw [graphWeight_cons, graphWeight_cons]
          have hih := ih hget'
          unfold graphDelete at hih
          rw [hih]
        · rw [if_neg hp, if_neg hp]
          have hih := ih hget'
          unfold graphDelete at hih
          exact hih

/-- Deleting the synced key after a sync is the same as deleting it before. -/
theorem graphDelete_graphSync_self (g : Graph) (w : Module) :
    graphDelete (graphSync g w) w.path = graphDelete g w.path := by
  unfold graphSync
  by_cases hs : (graphGet g w.path).isSome = true
  · rw [if_pos hs]
    exact graphDelete_graphSet_self g w
  · rw [if_neg hs]

/-- The graph-weight bound of the self-edge branch of `detachEdge`. -/
theorem detach_self_weight (g : Graph) (v : Module) (inv : List String)
    (deps : List (String × Dep)) :
    graphWeight (graphDelete (graphSync
      (if ({ v with inverseDependencies := inv } : Module).inverseDependencies.isEmpty
       then graphDelete (graphSet g { v with inverseDependencies := inv }) v.path
       else graphSet g { v with inverseDependencies := inv })
      { v with inverseDependencies := inv, dependencies := deps }) v.path)
    ≤ graphWeight (graphDelete g v.path) := by
  have hsync := graphDelete_graphSync_self
    (if ({ v with inverseDependencies := inv } : Module).inverseDependencies.isEmpty
     then graphDelete (graphSet g { v with inverseDependencies := inv }) v.path
     else graphSet g { v with inverseDependencies := inv })
    { v with inverseDependencies := inv, dependencies := deps }
  rw [show ({ v with inverseDependencies := inv, dependencies := deps } : Module).path
    = v.path from rfl] at hsync
  rw [hsync]
  by_cases hc :
      ({ v with inverseDependencies := inv } : Module).inverseDependencies.isEmpty = true
  · rw [if_pos hc]
    rw [graphDelete_graphDelete_self]
    have h7 := graphDelete_graphSet_self g { v with inverseDependencies := inv }
    rw [show ({ v with inverseDependencies := inv } : Module).path = v.path from rfl] at h7
    rw [h7]
  · rw [if_neg hc]
    have h7 := graphDelete_graphSet_self g { v with inverseDependencies := inv }
    rw [show ({ v with inverseDependencies := inv } : Module).path = v.path from rfl] at h7
    rw [h7]

/-- The graph-weight bound of the cross-edge branch of `detachEdge`. -/
theorem detach_other_weight (g : Graph) (v gd : Module) (q : String)
    (hq : graphGet g q = some gd)
    (inv : List String) (deps : List (String × Dep)) :
    graphWeight (graphDelete (graphSync
      (if ({ gd with inverseDependencies := inv } : Module).inverseDependencies.isEmpty
       then graphDelete g q
       else graphSet g { gd with inverseDependencies := inv })
      { v with dependencies := deps }) v.path)
    ≤ graphWeight (graphDelete g v.path) := by
  have hsync := graphDelete_graphSync_self
    (if ({ gd with inverseDependencies := inv } : Module).inverseDependencies.isEmpty
     then graphDelete g q
     else graphSet g { gd with inverseDependencies := inv })
    { v with dependencies := deps }
  rw [show ({ v with dependencies := deps } : Module).path = v.path from rfl] at hsync
  rw [hsync]
  by_cases hc :
      ({ gd with inverseDependencies := inv } : Module).inverseDependencies.isEmpty = true
  · rw [if_pos hc]
    rw [graphDelete_graphDelete_comm]
    exact graphWeight_graphDelete_le _ _
  · rw [if_neg hc]
    have hget' : graphGet g (({ gd with inverseDependencies := inv } : Module)).path
        = some gd := by
      show graphGet g gd.path = some gd
      rw [graphGet_path g q gd hq]
      exact hq
    have h4 := graphWeight_graphDelete_graphSet g { gd with inverseDependencies := inv }
      gd v.path hget' rfl
    exact Nat.le_of_eq h4

/-- Frame of `detachEdge`: the threaded module keeps its path and output, and the
weight of the graph without that module's key never increases. -/
theorem detachEdge_frame (v : Module) (g : Graph) (mid : String)
    (v₁ : Module) (g₁ : Graph) (h : detachEdge v g mid = .ok (v₁, g₁)) :
    v₁.path = v.path ∧ v₁.output = v.output ∧
      graphWeight (graphDelete g₁ v.path) ≤ graphWeight (graphDelete g v.path) := by
  unfold detachEdge at h
  split at h
  · exact absurd h (by simp)
  next depId dep hfind =>
    split at h
    next hself =>
      split at h
      · exact absurd h (by simp)
      next w hw =>
        rw [hself] at h
        simp only [Except.ok.injEq, Prod.mk.injEq] at h
        obtain ⟨hv, hg⟩ := h
        subst hv
        subst hg
        refine ⟨rfl, rfl, ?_⟩
        exact detach_self_weight g v (v.inverseDependencies.filter (fun q => q != v.path))
          (v.dependencies.filter (fun kv => kv.1 != depId))
    next hns =>
      split at h
      · exact absurd h (by simp)
      next gd hgd =>
        simp only [Except.ok.injEq, Prod.mk.injEq] at h
        obtain ⟨hv, hg⟩ := h
        subst hv
        subst hg
        refine ⟨rfl, rfl, ?_⟩
        exact detach_other_weight g v gd dep.absolutePath hgd
          (gd.inverseDependencies.filter (fun q => q != v.path))
          (v.dependencies.filter (fun kv => kv.1 != depId))

/-- Specifier filtering never lengthens the list. -/
theorem filterSpecifiers_length (u : List String) (sps sps' : List AstSpec)
    (h : filterSpecifiers u sps = .ok sps') : sps'.length ≤ sps.length := by
  induction sps generalizing sps' with
  | nil =>
      rw [filterSpecifiers] at h
      simp only [Except.ok.injEq] at h
      subst h
      exact Nat.le_refl 0
  | cons sp rest ih =>
      rw [filterSpecifiers] at h
      split at h
      · exact absurd h (by simp)
      next name hname =>
        split at h
        · exact Nat.le_trans (ih sps' h) (Nat.le_succ _)
        · cases hrec : filterSpecifiers u rest with
          | error e =>
              rw [hrec] at h
              simp only [Except.map] at h
              exact absurd h (by simp)
          | ok rest' =>
              rw [hrec] at h
              simp only [Except.map, Except.ok.injEq] at h
              subst h
              simp only [List.length_cons]
              exact Nat.succ_le_succ (ih rest' hrec)

/-- Specifier filtering drops at least one specifier when some member is a named
specifier whose imported name is in the unused set. -/
theorem filterSpecifiers_strict (u : List String) (sps sps' : List AstSpec)
    (h : filterSpecifiers u sps = .ok sps') (sp₀ : AstSpec) (hmem : sp₀ ∈ sps)
    (n : String) (hsp : sp₀.imported = some n) (hu : u.contains n = true) :
    sps'.length < sps.length := by
  induction sps generalizing sps' with
  | nil => exact absurd hmem (List.not_mem_nil sp₀)
  | cons sp rest ih =>
      rw [filterSpecifiers] at h
      split at h
      · exact absurd h (by simp)
      next name hname =>
        split at h
        next hcont =>
          have hlen := filterSpecifiers_length u rest sps' h
          simp only [List.length_cons]
          omega
        next hnc =>
          cases hrec : filterSpecifiers u rest with
          | error e =>
              rw [hrec] at h
              simp only [Except.map] at h
              exact absurd h (by simp)
          | ok rest' =>
              rw [hrec] at h
              simp only [Except.map, Except.ok.injEq] at h
              subst h
              rcases List.mem_cons.mp hmem with rfl | hmem'
              · rw [hname] at hsp
                simp only [Option.some.injEq] at hsp
                subst hsp
                exact absurd hu hnc
              · have hlt := ih rest' hrec hmem'
                simp only [List.length_cons]
                omega

/-- A specifier list that filtering accepts contains no default or namespace
specifier (whose `imported` is `undefined`). -/
theorem filterSpecifiers_named (u : List String) (sps sps' : List AstSpec)
    (h : filterSpecifiers u sps = .ok sps') :
    ∀ sp ∈ sps, sp.imported ≠ none := by
  induction sps generalizing sps' with
  | nil =>
      intro sp hsp
      exact absurd hsp (List.not_mem_nil sp)
  | cons sp rest ih =>
      rw [filterSpecifiers] at h
      split at h
      · exact absurd h (by simp)
      next name hname =>
        intro sp₁ hsp₁
        rcases List.mem_cons.mp hsp₁ with rfl | hmem
        · simp [hname]
        · split at h
          · exact ih sps' h sp₁ hmem
          · cases hrec : filterSpecifiers u rest with
            | error e =>
                rw [hrec] at h
                simp only [Except.map] at h
                exact absurd h (by simp)
            | ok rest' => exact ih rest' hrec sp₁ hmem

/-- The weight of a cons AST. -/
theorem astWeight_cons (s : Stmt) (t : Ast) :
    astWeight (s :: t) = stmtWeight s + astWeight t := by
  simp [astWeight]

/-- The removal traversal keeps the threaded module's path and output. -/
theorem removeImportsAst_vframe (u : List String) (stmts : List Stmt) (v : Module)
    (g : Graph) (flag : Bool) (t : Ast) (v' : Module) (g' : Graph) (r : Bool)
    (h : removeImportsAst u stmts v g flag = .ok (t, v', g', r)) :
    v'.path = v.path ∧ v'.output = v.output := by
  induction stmts generalizing v g flag t v' g' r with
  | nil =>
      rw [removeImportsAst] at h
      simp only [Except.ok.injEq, Prod.mk.injEq] at h
      obtain ⟨-, hv, -, -⟩ := h
      rw [← hv]
      exact ⟨rfl, rfl⟩
  | cons s rest ih =>
      cases s with
      | importDecl src specs =>
          rw [removeImportsAst] at h
          split at h
          · exact absurd h (by simp)
          next specs' hf =>
            split at h
            · split at h
              · exact absurd h (by simp)
              next v1 g1 hd =>
                have hde := detachEdge_frame v g src v1 g1 hd
                have hr := ih v1 g1 true t v' g' r h
                exact ⟨hr.1.trans hde.1, hr.2.trans hde.2.1⟩
            · split at h
              · exact absurd h (by simp)
              next t₀ v₀ g₀ r₀ hrec =>
                simp only [Except.ok.injEq, Prod.mk.injEq] at h
                obtain ⟨-, hv, -, -⟩ := h
                rw [← hv]
                exact ih v g flag t₀ v₀ g₀ r₀ hrec
      | exportDefault uu rq =>
          rw [removeImportsAst] at h
          split at h
          · exact absurd h (by simp)
          next t₀ v₀ g₀ r₀ hrec =>
            simp only [Except.ok.injEq, Prod.mk.injEq] at h
            obtain ⟨-, hv, -, -⟩ := h
            rw [← hv]
            exact ih v g flag t₀ v₀ g₀ r₀ hrec
      | exportVars decls rq =>
          rw [removeImportsAst] at h
          split at h
          · exact absurd h (by simp)
          next t₀ v₀ g₀ r₀ hrec =>
            simp only [Except.ok.injEq, Prod.mk.injEq] at h
            obtain ⟨-, hv, -, -⟩ := h
            rw [← hv]
            exact ih v g flag t₀ v₀ g₀ r₀ hrec
      | exportFun name uu rq =>
          rw [removeImportsAst] at h
          split at h
          · exact absurd h (by simp)
          next t₀ v₀ g₀ r₀ hrec =>
            simp only [Except.ok.injEq, Prod.mk.injEq] at h
            obtain ⟨-, hv, -, -⟩ := h
            rw [← hv]
            exact ih v g flag t₀ v₀ g₀ r₀ hrec
      | other uu rc me oc =>
          rw [removeImportsAst] at h
          split at h
          · exact absurd h (by simp)
          next t₀ v₀ g₀ r₀ hrec =>
            simp only [Except.ok.injEq, Prod.mk.injEq] at h
            obtain ⟨-, hv, -, -⟩ := h
            rw [← hv]
            exact ih v g flag t₀ v₀ g₀ r₀ hrec

/-- The removal traversal never increases the weight of the graph without the
threaded module's key. -/
theorem removeImportsAst_gweight (u : List String) (stmts : List Stmt) (v : Module)
    (g : Graph) (flag : Bool) (t : Ast) (v' : Module) (g' : Graph) (r : Bool)
    (h : removeImportsAst u stmts v g flag = .ok (t, v', g', r)) :
    graphWeight (graphDelete g' v.path) ≤ graphWeight (graphDelete g v.path) := by
  induction stmts generalizing v g flag t v' g' r with
  | nil =>
      rw [removeImportsAst] at h
      simp only [Except.ok.injEq, Prod.mk.injEq] at h
      obtain ⟨-, -, hg, -⟩ := h
      rw [← hg]
  | cons s rest ih =>
      cases s with
      | importDecl src specs =>
          rw [removeImportsAst] at h
          split at h
          · exact absurd h (by simp)
          next specs' hf =>
            split at h
            · split at h
              · exact absurd h (by simp)
              next v1 g1 hd =>
                have hde := detachEdge_frame v g src v1 g1 hd
                have hr := ih v1 g1 true t v' g' r h
                rw [hde.1] at hr
                exact Nat.le_trans hr hde.2.2
            · split at h
              · exact absurd h (by simp)
              next t₀ v₀ g₀ r₀ hrec =>
                simp only [Except.ok.injEq, Prod.mk.injEq] at h
                obtain ⟨-, -, hg, -⟩ := h
                rw [← hg]
                exact ih v g flag t₀ v₀ g₀ r₀ hrec
      | exportDefault uu rq =>
          rw [removeImportsAst] at h
          split at h
          · exact absurd h (by simp)
          next t₀ v₀ g₀ r₀ hrec =>
            simp only [Except.ok.injEq, Prod.mk.injEq] at h
            obtain ⟨-, -, hg, -⟩ := h
            rw [← hg]
            exact ih v g flag t₀ v₀ g₀ r₀ hrec
      | exportVars decls rq =>
          rw [removeImportsAst] at h
          split at h
          · exact absurd h (by simp)
          next t₀ v₀ g₀ r₀ hrec =>
            simp only [Except.ok.injEq, Prod.mk.injEq] at h
            obtain ⟨-, -, hg, -⟩ := h
            rw [← hg]
            exact ih v g flag t₀ v₀ g₀ r₀ hrec
      | exportFun name uu rq =>
          rw [removeImportsAst] at h
          split at h
          · exact absurd h (by simp)
          next t₀ v₀ g₀ r₀ hrec =>
            simp only [Except.ok.injEq, Prod.mk.injEq] at h
            obtain ⟨-, -, hg, -⟩ := h
            rw [← hg]
            exact ih v g flag t₀ v₀ g₀ r₀ hrec
      | other uu rc me oc =>
          rw [removeImportsAst] at h
          split at h
          · exact absurd h (by simp)
          next t₀ v₀ g₀ r₀ hrec =>
            simp only [Except.ok.injEq, Prod.mk.injEq] at h
            obtain ⟨-, -, hg, -⟩ := h
            rw [← hg]
            exact ih v g flag t₀ v₀ g₀ r₀ hrec

/-- The removal traversal never increases the weight of the AST. -/
theorem removeImportsAst_tweight (u : List String) (stmts : List Stmt) (v : Module)
    (g : Graph) (flag : Bool) (t : Ast) (v' : Module) (g' : Graph) (r : Bool)
    (h : removeImportsAst u stmts v g flag = .ok (t, v', g', r)) :
    astWeight t ≤ astWeight stmts := by
  induction stmts generalizing v g flag t v' g' r with
  | nil =>
      rw [removeImportsAst] at h
      simp only [Except.ok.injEq, Prod.mk.injEq] at h
      obtain ⟨ht, -, -, -⟩ := h
      rw [← ht]
  | cons s rest ih =>
      cases s with
      | importDecl src specs =>
          rw [removeImportsAst] at h
          split at h
          · exact absurd h (by simp)
          next specs' hf =>
            split at h
            · split at h
              · exact absurd h (by simp)
              next v1 g1 hd =>
                refine Nat.le_trans (ih v1 g1 true t v' g' r h) ?_
                rw [astWeight_cons]
                exact Nat.le_add_left _ _
            · split at h
              · exact absurd h (by simp)
              next t₀ v₀ g₀ r₀ hrec =>
                simp only [Except.ok.injEq, Prod.mk.injEq] at h
                obtain ⟨ht, -, -, -⟩ := h
                have h1 := filterSpecifiers_length u specs specs' hf
                have h2 := ih v g flag t₀ v₀ g₀ r₀ hrec
                rw [← ht, astWeight_cons, astWeight_cons]
                show specs'.length + 1 + astWeight t₀ ≤ specs.length + 1 + astWeight rest
                omega
      | exportDefault uu rq =>
          rw [removeImportsAst] at h
          split at h
          · exact absurd h (by simp)
          next t₀ v₀ g₀ r₀ hrec =>
            simp only [Except.ok.injEq, Prod.mk.injEq] at h
            obtain ⟨ht, -, -, -⟩ := h
            rw [← ht, astWeight_cons, astWeight_cons]
            exact Nat.add_le_add_left (ih v g flag t₀ v₀ g₀ r₀ hrec) _
      | exportVars decls rq =>
          rw [removeImportsAst] at h
          split at h
          · exact absurd h (by simp)
          next t₀ v₀ g₀ r₀ hrec =>
            simp only [Except.ok.injEq, Prod.mk.injEq] at h
            obtain ⟨ht, -, -, -⟩ := h
            rw [← ht, astWeight_cons, astWeight_cons]
            exact Nat.add_le_add_left (ih v g flag t₀ v₀ g₀ r₀ hrec) _
      | exportFun name uu rq =>
          rw [removeImportsAst] at h
          split at h
          · exact absurd h (by simp)
          next t₀ v₀ g₀ r₀ hrec =>
            simp only [Except.ok.injEq, Prod.mk.injEq] at h
            obtain ⟨ht, -, -, -⟩ := h
            rw [← ht, astWeight_cons, astWeight_cons]
            exact Nat.add_le_add_left (ih v g flag t₀ v₀ g₀ r₀ hrec) _
      | other uu rc me oc =>
          rw [removeImportsAst] at h
          split at h
          · exact absurd h (by simp)
          next t₀ v₀ g₀ r₀ hrec =>
            simp only [Except.ok.injEq, Prod.mk.injEq] at h
            obtain ⟨ht, -, -, -⟩ := h
            rw [← ht, astWeight_cons, astWeight_cons]
            exact Nat.add_le_add_left (ih v g flag t₀ v₀ g₀ r₀ hrec) _

/-- A removal report comes from the initial flag or from an actual weight decrease. -/
theorem removeImportsAst_true_src (u : List String) (stmts : List Stmt) (v : Module)
    (g : Graph) (flag : Bool) (t : Ast) (v' : Module) (g' : Graph)
    (h : removeImportsAst u stmts v g flag = .ok (t, v', g', true)) :
    flag = true ∨ astWeight t < astWeight stmts := by
  induction stmts generalizing v g flag t v' g' with
  | nil =>
      rw [removeImportsAst] at h
      simp only [Except.ok.injEq, Prod.mk.injEq] at h
      exact Or.inl h.2.2.2
  | cons s rest ih =>
      cases s with
      | importDecl src specs =>
          rw [removeImportsAst] at h
          split at h
          · exact absurd h (by simp)
          next specs' hf =>
            split at h
            · split at h
              · exact absurd h (by simp)
              next v1 g1 hd =>
                refine Or.inr ?_
                have h2 := removeImportsAst_tweight u rest v1 g1 true t v' g' true h
                rw [astWeight_cons]
                show astWeight t < specs.length + 1 + astWeight rest
                omega
            · split at h
              · exact absurd h (by simp)
              next t₀ v₀ g₀ r₀ hrec =>
                simp only [Except.ok.injEq, Prod.mk.injEq] at h
                obtain ⟨ht, -, -, hr⟩ := h
                rw [hr] at hrec
                rcases ih v g flag t₀ v₀ g₀ hrec with hflag | hst
                · exact Or.inl hflag
                · refine Or.inr ?_
                  have h1 := filterSpecifiers_length u specs specs' hf
                  rw [← ht, astWeight_cons, astWeight_cons]
                  show specs'.length + 1 + astWeight t₀ < specs.length + 1 + astWeight rest
                  omega
      | exportDefault uu rq =>
          rw [removeImportsAst] at h
          split at h
          · exact absurd h (by simp)
          next t₀ v₀ g₀ r₀ hrec =>
            simp only [Except.ok.injEq, Prod.mk.injEq] at h
            obtain ⟨ht, -, -, hr⟩ := h
            rw [hr] at hrec
            rcases ih v g flag t₀ v₀ g₀ hrec with hflag | hst
            · exact Or.inl hflag
            · refine Or.inr ?_
              rw [← ht, astWeight_cons, astWeight_cons]
              exact Nat.add_lt_add_left hst _
      | exportVars decls rq =>
          rw [removeImportsAst] at h
          split at h
          · exact absurd h (by simp)
          next t₀ v₀ g₀ r₀ hrec =>
            simp only [Except.ok.injEq, Prod.mk.injEq] at h
            obtain ⟨ht, -, -, hr⟩ := h
            rw [hr] at hrec
            rcases ih v g flag t₀ v₀ g₀ hrec with hflag | hst
            · exact Or.inl hflag
            · refine Or.inr ?_
              rw [← ht, astWeight_cons, astWeight_cons]
              exact Nat.add_lt_add_left hst _
      | exportFun name uu rq =>
          rw [removeImportsAst] at h
          split at h
          · exact absurd h (by simp)
          next t₀ v₀ g₀ r₀ hrec =>
            simp only [Except.ok.injEq, Prod.mk.injEq] at h
            obtain ⟨ht, -, -, hr⟩ := h
            rw [hr] at hrec
            rcases ih v g flag t₀ v₀ g₀ hrec with hflag | hst
            · exact Or.inl hflag
            · refine Or.inr ?_
              rw [← ht, astWeight_cons, astWeight_cons]
              exact Nat.add_lt_add_left hst _
      | other uu rc me oc =>
          rw [removeImportsAst] at h
          split at h
          · exact absurd h (by simp)
          next t₀ v₀ g₀ r₀ hrec =>
            simp only [Except.ok.injEq, Prod.mk.injEq] at h
            obtain ⟨ht, -, -, hr⟩ := h
            rw [hr] at hrec
            rcases ih v g flag t₀ v₀ g₀ hrec with hflag | hst
            · exact Or.inl hflag
            · refine Or.inr ?_
              rw [← ht, astWeight_cons, astWeight_cons]
              exact Nat.add_lt_add_left hst _

/-- If some import declaration of the traversed list carries a named specifier with an
unused imported name, a successful traversal strictly shrinks the AST weight. -/
theorem removeImportsAst_witness_strict (u : List String) (stmts : List Stmt)
    (v : Module) (g : Graph) (flag : Bool) (t : Ast) (v' : Module) (g' : Graph) (r : Bool)
    (h : removeImportsAst u stmts v g flag = .ok (t, v', g', r))
    (src₀ : String) (specs₀ : List AstSpec)
    (hmem : Stmt.importDecl src₀ specs₀ ∈ stmts)
    (sp₀ : AstSpec) (hsp₀ : sp₀ ∈ specs₀) (n : String) (hn : sp₀.imported = some n)
    (hu : u.contains n = true) :
    astWeight t < astWeight stmts := by
  induction stmts generalizing v g flag t v' g' r with
  | nil => exact absurd hmem (List.not_mem_nil _)
  | cons s rest ih =>
      cases s with
      | importDecl src specs =>
          rw [removeImportsAst] at h
          split at h
          · exact absurd h (by simp)
          next specs' hf =>
            split at h
            · split at h
              · exact absurd h (by simp)
              next v1 g1 hd =>
                have h2 := removeImportsAst_tweight u rest v1 g1 true t v' g' r h
                rw [astWeight_cons]
                show astWeight t < specs.length + 1 + astWeight rest
                omega
            · split at h
              · exact absurd h (by simp)
              next t₀ v₀ g₀ r₀ hrec =>
                simp only [Except.ok.injEq, Prod.mk.injEq] at h
                obtain ⟨ht, -, -, -⟩ := h
                have h2 := removeImportsAst_tweight u rest v g flag t₀ v₀ g₀ r₀ hrec
                rcases List.mem_cons.mp hmem with heq | hmem'
                · injection heq with h1 h3
                  rw [h3] at hsp₀
                  have hstrict := filterSpecifiers_strict u specs specs' hf sp₀ hsp₀ n hn hu
                  rw [← ht, astWeight_cons, astWeight_cons]
                  show specs'.length + 1 + astWeight t₀ < specs.length + 1 + astWeight rest
                  omega
                · have hih := ih v g flag t₀ v₀ g₀ r₀ hrec hmem'
                  have h1 := filterSpecifiers_length u specs specs' hf
                  rw [← ht, astWeight_cons, astWeight_cons]
                  show specs'.length + 1 + astWeight t₀ < specs.length + 1 + astWeight rest
                  omega
      | exportDefault uu rq =>
          rw [removeImportsAst] at h
          split at h
          · exact absurd h (by simp)
          next t₀ v₀ g₀ r₀ hrec =>
            simp only [Except.ok.injEq, Prod.mk.injEq] at h
            obtain ⟨ht, -, -, -⟩ := h
            rcases List.mem_cons.mp hmem with heq | hmem'
            · exact absurd heq (by simp)
            · have hih := ih v g flag t₀ v₀ g₀ r₀ hrec hmem'
              rw [← ht, astWeight_cons, astWeight_cons]
              exact Nat.add_lt_add_left hih _
      | exportVars decls rq =>
          rw [removeImportsAst] at h
          split at h
          · exact absurd h (by simp)
          next t₀ v₀ g₀ r₀ hrec =>
            simp only [Except.ok.injEq, Prod.mk.injEq] at h
            obtain ⟨ht, -, -, -⟩ := h
            rcases List.mem_cons.mp hmem with heq | hmem'
            · exact absurd heq (by simp)
            · have hih := ih v g flag t₀ v₀ g₀ r₀ hrec hmem'
              rw [← ht, astWeight_cons, astWeight_cons]
              exact Nat.add_lt_add_left hih _
      | exportFun name uu rq =>
          rw [removeImportsAst] at h
          split at h
          · exact absurd h (by simp)
          next t₀ v₀ g₀ r₀ hrec =>
            simp only [Except.ok.injEq, Prod.mk.injEq] at h
            obtain ⟨ht, -, -, -⟩ := h
            rcases List.mem_cons.mp hmem with heq | hmem'
            · exact absurd heq (by simp)
            · have hih := ih v g flag t₀ v₀ g₀ r₀ hrec hmem'
              rw [← ht, astWeight_cons, astWeight_cons]
              exact Nat.add_lt_add_left hih _
      | other uu rc me oc =>
          rw [removeImportsAst] at h
          split at h
          · exact absurd h (by simp)
          next t₀ v₀ g₀ r₀ hrec =>
            simp only [Except.ok.injEq, Prod.mk.injEq] at h
            obtain ⟨ht, -, -, -⟩ := h
            rcases List.mem_cons.mp hmem with heq | hmem'
            · exact absurd heq (by simp)
            · have hih := ih v g flag t₀ v₀ g₀ r₀ hrec hmem'
              rw [← ht, astWeight_cons, astWeight_cons]
              exact Nat.add_lt_add_left hih _

/-- On a successful traversal, no import declaration of the list carries a default or
namespace specifier. -/
theorem removeImportsAst_named (u : List String) (stmts : List Stmt)
    (v : Module) (g : Graph) (flag : Bool) (t : Ast) (v' : Module) (g' : Graph) (r : Bool)
    (h : removeImportsAst u stmts v g flag = .ok (t, v', g', r)) :
    ∀ src specs, Stmt.importDecl src specs ∈ stmts → ∀ sp ∈ specs,
      sp.imported ≠ none := by
  induction stmts generalizing v g flag t v' g' r with
  | nil =>
      intro src specs hmem
      exact absurd hmem (List.not_mem_nil _)
  | cons s rest ih =>
      cases s with
      | importDecl src₁ specs₁ =>
          rw [removeImportsAst] at h
          split at h
          · exact absurd h (by simp)
          next specs' hf =>
            intro src specs hmem sp hsp
            rcases List.mem_cons.mp hmem with heq | hmem'
            · injection heq with h1 h2
              rw [h2] at hsp
              exact filterSpecifiers_named u specs₁ specs' hf sp hsp
            · split at h
              · split at h
                · exact absurd h (by simp)
                next v1 g1 hd =>
                  exact ih v1 g1 true t v' g' r h src specs hmem' sp hsp
              · split at h
                · exact absurd h (by simp)
                next t₀ v₀ g₀ r₀ hrec =>
                  exact ih v g flag t₀ v₀ g₀ r₀ hrec src specs hmem' sp hsp
      | exportDefault uu rq =>
          rw [removeImportsAst] at h
          split at h
          · exact absurd h (by simp)
          next t₀ v₀ g₀ r₀ hrec =>
            intro src specs hmem sp hsp
            rcases List.mem_cons.mp hmem with heq | hmem'
            · exact absurd heq (by simp)
            · exact ih v g flag t₀ v₀ g₀ r₀ hrec src specs hmem' sp hsp
      | exportVars decls rq =>
          rw [removeImportsAst] at h
          split at h
          · exact absurd h (by simp)
          next t₀ v₀ g₀ r₀ hrec =>
            intro src specs hmem sp hsp
            rcases List.mem_cons.mp hmem with heq | hmem'
            · exact absurd heq (by simp)
            · exact ih v g flag t₀ v₀ g₀ r₀ hrec src specs hmem' sp hsp
      | exportFun name uu rq =>
          rw [removeImportsAst] at h
          split at h
          · exact absurd h (by simp)
          next t₀ v₀ g₀ r₀ hrec =>
            intro src specs hmem sp hsp
            rcases List.mem_cons.mp hmem with heq | hmem'
            · exact absurd heq (by simp)
            · exact ih v g flag t₀ v₀ g₀ r₀ hrec src specs hmem' sp hsp
      | other uu rc me oc =>
          rw [removeImportsAst] at h
          split at h
          · exact absurd h (by simp)
          next t₀ v₀ g₀ r₀ hrec =>
            intro src specs hmem sp hsp
            rcases List.mem_cons.mp hmem with heq | hmem'
            · exact absurd heq (by simp)
            · exact ih v g flag t₀ v₀ g₀ r₀ hrec src specs hmem' sp hsp

/-- Membership in `setAdd`. -/
theorem setAdd_mem (l : List String) (x n : String) (h : n ∈ setAdd l x) :
    n ∈ l ∨ n = x := by
  unfold setAdd at h
  by_cases hc : l.contains x = true
  · rw [if_pos hc] at h
    exact Or.inl h
  · rw [if_neg hc] at h
    rcases List.mem_append.mp h with h1 | h1
    · exact Or.inl h1
    · exact Or.inr (List.mem_singleton.mp h1)

/-- Inversion of membership in a fold over an accumulator. -/
theorem foldl_mem_inv {α : Type} (step : List String → α → List String)
    (P : α → String → Prop)
    (hstep : ∀ acc x n, n ∈ step acc x → n ∈ acc ∨ P x n) :
    ∀ (l : List α) (acc : List String) (n : String),
      n ∈ l.foldl step acc → n ∈ acc ∨ ∃ x ∈ l, P x n := by
  intro l
  induction l with
  | nil =>
      intro acc n h
      exact Or.inl h
  | cons x xs ih =>
      intro acc n h
      rw [List.foldl_cons] at h
      rcases ih (step acc x) n h with hacc | ⟨y, hy, hP⟩
      · rcases hstep acc x n hacc with h1 | h1
        · exact Or.inl h1
        · exact Or.inr ⟨x, List.mem_cons_self x xs, h1⟩
      · exact Or.inr ⟨y, List.mem_cons_of_mem x hy, hP⟩

/-- Every member of the `importedIdentifiers` set comes from some specifier of some
some import declaration: a named specifier with that name, or a default/namespace
specifier (recorded under its local name, with `imported` `undefined`). -/
theorem collectImported_mem (ast : Ast) (n : String) (h : n ∈ collectImported ast) :
    ∃ src specs, Stmt.importDecl src specs ∈ ast ∧
      ∃ sp ∈ specs, (sp.imported = some n ∨ sp.imported = none) := by
  have hinner : ∀ (specs : List AstSpec) (acc : List String) (m : String),
      m ∈ specs.foldl (fun acc sp =>
        match sp with
        | .importSpecifier imported _ => setAdd acc imported
        | .importDefaultSpecifier l => setAdd acc l
        | .importNamespaceSpecifier l => setAdd acc l) acc →
      m ∈ acc ∨ ∃ sp ∈ specs, (sp.imported = some m ∨ sp.imported = none) := by
    intro specs acc m hm
    refine foldl_mem_inv _
      (fun sp m => sp.imported = some m ∨ sp.imported = none) ?_ specs acc m hm
    intro acc sp m hmem
    cases sp with
    | importSpecifier i l =>
        rcases setAdd_mem acc i m hmem with h1 | h1
        · exact Or.inl h1
        · refine Or.inr (Or.inl ?_)
          show some i = some m
          rw [h1]
    | importDefaultSpecifier l =>
        rcases setAdd_mem acc l m hmem with h1 | h1
        · exact Or.inl h1
        · exact Or.inr (Or.inr rfl)
    | importNamespaceSpecifier l =>
        rcases setAdd_mem acc l m hmem with h1 | h1
        · exact Or.inl h1
        · exact Or.inr (Or.inr rfl)
  unfold collectImported at h
  have houter : n ∈ ([] : List String) ∨ ∃ s ∈ ast, ∃ src specs,
      s = Stmt.importDecl src specs ∧
      ∃ sp ∈ specs, (sp.imported = some n ∨ sp.imported = none) := by
    refine foldl_mem_inv _
      (fun s m => ∃ src specs, s = Stmt.importDecl src specs ∧
        ∃ sp ∈ specs, (sp.imported = some m ∨ sp.imported = none)) ?_ ast [] n h
    intro acc s m hm
    cases s with
    | importDecl src specs =>
        rcases hinner specs acc m hm with h1 | h2
        · exact Or.inl h1
        · exact Or.inr ⟨src, specs, rfl, h2⟩
    | exportDefault uu rq => exact Or.inl hm
    | exportVars decls rq => exact Or.inl hm
    | exportFun name uu rq => exact Or.inl hm
    | other uu rc me oc => exact Or.inl hm
  rcases houter with habs | ⟨s, hs, src, specs, heq, hw⟩
  · exact absurd habs (List.not_mem_nil n)
  · subst heq
    exact ⟨src, specs, hs, hw⟩

/-- The output-weight bookkeeping of an AST write-back at a mapped index. -/
theorem setAstAt_weight (out : List OutputItem) (idx : Nat) (a : Ast)
    (item : OutputItem) (hget : out.get? idx = some item) :
    ((setAstAt out idx a).map itemWeight).sum + itemWeight item
      = (out.map itemWeight).sum + astWeight a := by
  induction out generalizing idx with
  | nil =>
      rw [List.get?_nil] at hget
      exact absurd hget (by simp)
  | cons it rest ih =>
      cases idx with
      | zero =>
          rw [List.get?_cons_zero] at hget
          simp only [Option.some.injEq] at hget
          subst hget
          rw [setAstAt]
          simp only [List.map_cons, List.sum_cons]
          have hiw : itemWeight { it with data := { it.data with ast := some a } }
              = astWeight a := rfl
          rw [hiw]
          omega
      | succ k =>
          rw [List.get?_cons_succ] at hget
          rw [setAstAt]
          simp only [List.map_cons, List.sum_cons]
          have hk := ih k hget
          omega

/-- A removal report strictly shrinks the import-size measure of the processing
state. -/
theorem removeUnusedImports_strict (value : Module) (idx : Nat) (g : Graph)
    (v' : Module) (g' : Graph)
    (h : removeUnusedImports value idx g = .ok (v', g', true)) :
    pairWeight v' g' < pairWeight value g := by
  obtain ⟨item, ast, t, v₀, g₀, hitem, hast, hrem, heq⟩ :=
    removeUnusedImports_ok value idx g (v', g', true) h
  simp only [Prod.mk.injEq] at heq
  obtain ⟨hv', hg', -⟩ := heq
  subst hv'
  subst hg'
  have hstrict : astWeight t < astWeight ast := by
    rcases removeImportsAst_true_src (unusedImportsOf ast) ast value g
        (!(unusedImportsOf ast).isEmpty) t v₀ g' hrem with hflag | hst
    · have hne : unusedImportsOf ast ≠ [] := by
        intro hnil
        rw [hnil] at hflag
        simp at hflag
      obtain ⟨n, hn⟩ := List.exists_mem_of_ne_nil (unusedImportsOf ast) hne
      have hci : n ∈ collectImported ast := List.mem_of_mem_filter hn
      have hcontains : (unusedImportsOf ast).contains n = true :=
        List.elem_eq_true_of_mem hn
      obtain ⟨src, specs, hdecl, sp, hsp, him⟩ := collectImported_mem ast n hci
      rcases him with hsome | hnone
      · exact removeImportsAst_witness_strict (unusedImportsOf ast) ast value g
          (!(unusedImportsOf ast).isEmpty) t v₀ g' true hrem src specs hdecl sp hsp
          n hsome hcontains
      · exact absurd hnone (removeImportsAst_named (unusedImportsOf ast) ast value g
          (!(unusedImportsOf ast).isEmpty) t v₀ g' true hrem src specs hdecl sp hsp)
    · exact hst
  have hvf := removeImportsAst_vframe (unusedImportsOf ast) ast value g
    (!(unusedImportsOf ast).isEmpty) t v₀ g' true hrem
  have hgw := removeImportsAst_gweight (unusedImportsOf ast) ast value g
    (!(unusedImportsOf ast).isEmpty) t v₀ g' true hrem
  have hiw : itemWeight item = astWeight ast := by
    unfold itemWeight
    rw [hast]
    rfl
  have hpath : (setOutputAst v₀ idx t).path = value.path := hvf.1
  have hget₀ : v₀.output.get? idx = some item := by
    rw [hvf.2]
    exact hitem
  have hmw : moduleWeight (setOutputAst v₀ idx t) + itemWeight item
      = moduleWeight value + astWeight t := by
    show ((setAstAt v₀.output idx t).map itemWeight).sum + itemWeight item
        = moduleWeight value + astWeight t
    rw [setAstAt_weight v₀.output idx t item hget₀]
    rw [hvf.2]
    rfl
  unfold pairWeight
  rw [hpath]
  omega

/-- C7 (amended): the spec's stated measure is wrong, but the re-run trigger is
well-founded along the import-size measure. A `removeUnusedImports` step that reports
no removal returns the module and graph unchanged, and a step that reports a removal —
the only condition under which `treeShakeAll` re-invokes itself — strictly shrinks the import
size measure (specifier plus import-declaration count) of the processing state,
so the repeated re-run cannot recurse forever. -/
theorem removal_strict_measure_decrease (value : Module) (idx : Nat) (g : Graph)
    (v' : Module) (g' : Graph) (removed : Bool)
    (h : removeUnusedImports value idx g = .ok (v', g', removed)) :
    (removed = false → v' = value ∧ g' = g) ∧
    (removed = true → pairWeight v' g' < pairWeight value g) := by
  constructor
  · intro hr
    subst hr
    exact removeUnusedImports_false value idx g v' g' h
  · intro hr
    subst hr
    exact removeUnusedImports_strict value idx g v' g' h

/-- Witness for `removal_strict_measure_decrease` at a concrete removal. -/
theorem removal_strict_measure_decrease_witness :
    removeUnusedImports shrinkQ 0 shrinkGraph
        = .ok (shrinkQShaken, shrinkGraphShaken, true) ∧
      pairWeight shrinkQShaken shrinkGraphShaken < pairWeight shrinkQ shrinkGraph :=
  ⟨by decide,
    (removal_strict_measure_decrease shrinkQ 0 shrinkGraph shrinkQShaken
      shrinkGraphShaken true (by decide)).2 rfl⟩

/-! ### Require-freeness of export declarations, and its preservation

`collectImportExports` records `cjs` edges for `require(...)` calls wherever they
occur — also inside export declarations.  Pruning such a declaration therefore changes
the records the next collection produces, which is what makes a second engine run able
to remove further exports.  The pass preserves the absence of such calls, and on
require-free graphs the recollection is stable. -/

/-- Members of a require-free graph are require-free. -/
theorem graphReqFree_mem (g : Graph) (h : graphReqFree g = true) :
    ∀ m ∈ g, moduleReqFree m = true := by
  intro m hm
  exact List.all_eq_true.mp h m hm

/-- Writing back a require-free module keeps the graph require-free. -/
theorem graphSet_free (g : Graph) (w : Module) (hg : graphReqFree g = true)
    (hw : moduleReqFree w = true) : graphReqFree (graphSet g w) = true := by
  refine List.all_eq_true.mpr ?_
  intro x hx
  rcases graphSet_mem g w x hx with rfl | hx'
  · exact hw
  · exact graphReqFree_mem g hg x hx'

/-- Deleting a key keeps the graph require-free. -/
theorem graphDelete_free (g : Graph) (p : String) (hg : graphReqFree g = true) :
    graphReqFree (graphDelete g p) = true := by
  refine List.all_eq_true.mpr ?_
  intro x hx
  exact graphReqFree_mem g hg x (List.mem_of_mem_filter hx)

/-- Syncing a require-free module keeps the graph require-free. -/
theorem graphSync_free (g : Graph) (w : Module) (hg : graphReqFree g = true)
    (hw : moduleReqFree w = true) : graphReqFree (graphSync g w) = true := by
  unfold graphSync
  by_cases hs : (graphGet g w.path).isSome = true
  · rw [if_pos hs]
    exact graphSet_free g w hg hw
  · rw [if_neg hs]
    exact hg

/-- The refreshed loop object of a require-free state is require-free. -/
theorem refresh_free (g : Graph) (v : Module) (hg : graphReqFree g = true)
    (hv : moduleReqFree v = true) :
    moduleReqFree ((graphGet g v.path).getD v) = true := by
  cases hw : graphGet g v.path with
  | none => simpa using hv
  | some w =>
      simp only [Option.getD_some]
      exact graphReqFree_mem g hg w (graphGet_mem g _ w hw)

/-- Every statement export pruning keeps was already in the AST. -/
theorem pruneExportsAst_mem (used : String → Bool) (a a' : Ast)
    (h : pruneExportsAst used a = .ok a') : ∀ s ∈ a', s ∈ a := by
  induction a generalizing a' with
  | nil =>
      rw [pruneExportsAst] at h
      simp only [Except.ok.injEq] at h
      subst h
      intro s hs
      exact absurd hs (List.not_mem_nil s)
  | cons s rest ih =>
      cases s with
      | exportDefault u rq =>
          rw [pruneExportsAst] at h
          by_cases hc : used "default"
          · rw [if_pos hc] at h
            obtain ⟨r', hr', rfl⟩ := exceptMap_ok _ _ _ h
            intro z hz
            rcases List.mem_cons.mp hz with rfl | hz'
            · exact List.mem_cons_self _ _
            · exact List.mem_cons_of_mem _ (ih r' hr' z hz')
          · rw [if_neg hc] at h
            intro z hz
            exact List.mem_cons_of_mem _ (ih a' h z hz)
      | exportFun name u rq =>
          rw [pruneExportsAst] at h
          by_cases hc : used name
          · rw [if_pos hc] at h
            obtain ⟨r', hr', rfl⟩ := exceptMap_ok _ _ _ h
            intro z hz
            rcases List.mem_cons.mp hz with rfl | hz'
            · exact List.mem_cons_self _ _
            · exact List.mem_cons_of_mem _ (ih r' hr' z hz')
          · rw [if_neg hc] at h
            intro z hz
            exact List.mem_cons_of_mem _ (ih a' h z hz)
      | exportVars decls rq =>
          simp only [pruneExportsAst] at h
          by_cases h2 : 2 ≤ (decls.filter (fun d => !(used d.name))).length
          · rw [if_pos h2] at h
            exact absurd h (by simp)
          · rw [if_neg h2] at h
            by_cases h1 : (decls.filter (fun d => !(used d.name))).length = 1
            · rw [if_pos h1] at h
              intro z hz
              exact List.mem_cons_of_mem _ (ih a' h z hz)
            · rw [if_neg h1] at h
              obtain ⟨r', hr', rfl⟩ := exceptMap_ok _ _ _ h
              intro z hz
              rcases List.mem_cons.mp hz with rfl | hz'
              · exact List.mem_cons_self _ _
              · exact List.mem_cons_of_mem _ (ih r' hr' z hz')
      | importDecl src specs =>
          rw [pruneExportsAst] at h
          obtain ⟨r', hr', rfl⟩ := exceptMap_ok _ _ _ h
          intro z hz
          rcases List.mem_cons.mp hz with rfl | hz'
          · exact List.mem_cons_self _ _
          · exact List.mem_cons_of_mem _ (ih r' hr' z hz')
      | other u rc me oc =>
          rw [pruneExportsAst] at h
          obtain ⟨r', hr', rfl⟩ := exceptMap_ok _ _ _ h
          intro z hz
          rcases List.mem_cons.mp hz with rfl | hz'
          · exact List.mem_cons_self _ _
          · exact List.mem_cons_of_mem _ (ih r' hr' z hz')

/-- Export pruning keeps an AST require-free. -/
theorem pruneExportsAst_free (used : String → Bool) (a a' : Ast)
    (hfree : astReqFree a = true) (h : pruneExportsAst used a = .ok a') :
    astReqFree a' = true := by
  refine List.all_eq_true.mpr ?_
  intro s hs
  exact List.all_eq_true.mp hfree s (pruneExportsAst_mem used a a' h s hs)

/-- Pruning an output item keeps it require-free. -/
theorem pruneOutputItem_free (used : String → Bool) (item item' : OutputItem)
    (h : pruneOutputItem used item = .ok item') (hfree : itemReqFree item = true) :
    itemReqFree item' = true := by
  obtain ⟨ast, ast', hast, hpr, rfl⟩ := pruneOutputItem_ok used item item' h
  have hfa : astReqFree ast = true := by
    unfold itemReqFree at hfree
    rw [hast] at hfree
    exact hfree
  show astReqFree ((some ast').getD _) = true
  exact pruneExportsAst_free used ast ast' hfa hpr

/-- Export pruning keeps a module require-free. -/
theorem treeShakeExports_free (g : Graph) (p : String) (m m' : Module)
    (h : treeShakeExports g p m = .ok m') (hfree : moduleReqFree m = true) :
    moduleReqFree m' = true := by
  obtain ⟨hmap, heq⟩ := treeShakeExports_ok g p m m' h
  have hrel := mapE_ok_forall2 _ _ _ hmap
  refine List.all_eq_true.mpr ?_
  intro item' hmem'
  obtain ⟨item, hitem, hxy⟩ := forall2_mem_right _ _ _ hrel item' hmem'
  exact pruneOutputItem_free _ item item' hxy (List.all_eq_true.mp hfree item hitem)

/-- Collection keeps an output item require-free. -/
theorem collectOutput_free (v : Module) (item item' : OutputItem)
    (h : collectOutput v item = .ok item') (hfree : itemReqFree item = true) :
    itemReqFree item' = true := by
  obtain ⟨recs, -, rfl⟩ := collectOutput_ok v item item' h
  show astReqFree ((some (item.data.ast.getD item.data.code)).getD _) = true
  exact hfree

/-- Collection keeps a module require-free. -/
theorem collectModule_free (m m' : Module) (h : collectModule m = .ok m')
    (hfree : moduleReqFree m = true) : moduleReqFree m' = true := by
  obtain ⟨-, -, -, hmap⟩ := collectModule_ok m m' h
  have hrel := mapE_ok_forall2 _ _ _ hmap
  refine List.all_eq_true.mpr ?_
  intro item' hmem'
  obtain ⟨item, hitem, hxy⟩ := forall2_mem_right _ _ _ hrel item' hmem'
  exact collectOutput_free m item item' hxy (List.all_eq_true.mp hfree item hitem)

/-- Collection keeps a graph require-free. -/
theorem collectAll_free (g g₀ : Graph) (h : collectAll g = .ok g₀)
    (hfree : graphReqFree g = true) : graphReqFree g₀ = true := by
  have hrel := mapE_ok_forall2 _ _ _ h
  refine List.all_eq_true.mpr ?_
  intro m' hmem'
  obtain ⟨m, hm, hxy⟩ := forall2_mem_right _ _ _ hrel m' hmem'
  exact collectModule_free m m' hxy (graphReqFree_mem g hfree m hm)

/-- Edge detaching keeps the module and the graph require-free. -/
theorem detachEdge_free (v : Module) (g : Graph) (mid : String)
    (v₁ : Module) (g₁ : Graph) (h : detachEdge v g mid = .ok (v₁, g₁))
    (hv : moduleReqFree v = true) (hg : graphReqFree g = true) :
    moduleReqFree v₁ = true ∧ graphReqFree g₁ = true := by
  unfold detachEdge at h
  split at h
  · exact absurd h (by simp)
  next depId dep hfind =>
    split at h
    next hself =>
      split at h
      · exact absurd h (by simp)
      next w hw =>
        simp only [Except.ok.injEq, Prod.mk.injEq] at h
        obtain ⟨hv1, hg1⟩ := h
        subst hv1
        subst hg1
        refine ⟨hv, ?_⟩
        apply graphSync_free
        · split
          · apply graphDelete_free
            exact graphSet_free g _ hg hv
          · exact graphSet_free g _ hg hv
        · exact hv
    next hns =>
      split at h
      · exact absurd h (by simp)
      next gd hgd =>
        simp only [Except.ok.injEq, Prod.mk.injEq] at h
        obtain ⟨hv1, hg1⟩ := h
        subst hv1
        subst hg1
        have hgdf : moduleReqFree gd = true :=
          graphReqFree_mem g hg gd (graphGet_mem g _ gd hgd)
        refine ⟨hv, ?_⟩
        apply graphSync_free
        · split
          · exact graphDelete_free g _ hg
          · exact graphSet_free g _ hg hgdf
        · exact hv

/-- The removal traversal keeps the AST, the module, and the graph require-free. -/
theorem removeImportsAst_allfree (u : List String) (stmts : List Stmt) (v : Module)
    (g : Graph) (flag : Bool) (t : Ast) (v' : Module) (g' : Graph) (r : Bool)
    (h : removeImportsAst u stmts v g flag = .ok (t, v', g', r))
    (hast : astReqFree stmts = true) (hv : moduleReqFree v = true)
    (hg : graphReqFree g = true) :
    astReqFree t = true ∧ moduleReqFree v' = true ∧ graphReqFree g' = true := by
  induction stmts generalizing v g flag t v' g' r with
  | nil =>
      rw [removeImportsAst] at h
      simp only [Except.ok.injEq, Prod.mk.injEq] at h
      obtain ⟨ht, hv', hg', -⟩ := h
      rw [← ht, ← hv', ← hg']
      exact ⟨rfl, hv, hg⟩
  | cons s rest ih =>
      rw [astReqFree, List.all_cons, Bool.and_eq_true] at hast
      obtain ⟨hhd, hrest⟩ := hast
      cases s with
      | importDecl src specs =>
          rw [removeImportsAst] at h
          split at h
          · exact absurd h (by simp)
          next specs' hf =>
            split at h
            · split at h
              · exact absurd h (by simp)
              next v1 g1 hd =>
                obtain ⟨hv1, hg1⟩ := detachEdge_free v g src v1 g1 hd hv hg
                exact ih v1 g1 true t v' g' r h hrest hv1 hg1
            · split at h
              · exact absurd h (by simp)
              next t₀ v₀ g₀ r₀ hrec =>
                simp only [Except.ok.injEq, Prod.mk.injEq] at h
                obtain ⟨ht, hv', hg', -⟩ := h
                obtain ⟨h1, h2, h3⟩ := ih v g flag t₀ v₀ g₀ r₀ hrec hrest hv hg
                rw [← ht, ← hv', ← hg']
                refine ⟨?_, h2, h3⟩
                rw [astReqFree, List.all_cons, Bool.and_eq_true]
                exact ⟨rfl, h1⟩
      | exportDefault uu rq =>
          rw [removeImportsAst] at h
          split at h
          · exact absurd h (by simp)
          next t₀ v₀ g₀ r₀ hrec =>
            simp only [Except.ok.injEq, Prod.mk.injEq] at h
            obtain ⟨ht, hv', hg', -⟩ := h
            obtain ⟨h1, h2, h3⟩ := ih v g flag t₀ v₀ g₀ r₀ hrec hrest hv hg
            rw [← ht, ← hv', ← hg']
            refine ⟨?_, h2, h3⟩
            rw [astReqFree, List.all_cons, Bool.and_eq_true]
            exact ⟨hhd, h1⟩
      | exportVars decls rq =>
          rw [removeImportsAst] at h
          split at h
          · exact absurd h (by simp)
          next t₀ v₀ g₀ r₀ hrec =>
            simp only [Except.ok.injEq, Prod.mk.injEq] at h
            obtain ⟨ht, hv', hg', -⟩ := h
            obtain ⟨h1, h2, h3⟩ := ih v g flag t₀ v₀ g₀ r₀ hrec hrest hv hg
            rw [← ht, ← hv', ← hg']
            refine ⟨?_, h2, h3⟩
            rw [astReqFree, List.all_cons, Bool.and_eq_true]
            exact ⟨hhd, h1⟩
      | exportFun name uu rq =>
          rw [removeImportsAst] at h
          split at h
          · exact absurd h (by simp)
          next t₀ v₀ g₀ r₀ hrec =>
            simp only [Except.ok.injEq, Prod.mk.injEq] at h
            obtain ⟨ht, hv', hg', -⟩ := h
            obtain ⟨h1, h2, h3⟩ := ih v g flag t₀ v₀ g₀ r₀ hrec hrest hv hg
            rw [← ht, ← hv', ← hg']
            refine ⟨?_, h2, h3⟩
            rw [astReqFree, List.all_cons, Bool.and_eq_true]
            exact ⟨hhd, h1⟩
      | other uu rc me oc =>
          rw [removeImportsAst] at h
          split at h
          · exact absurd h (by simp)
          next t₀ v₀ g₀ r₀ hrec =>
            simp only [Except.ok.injEq, Prod.mk.injEq] at h
            obtain ⟨ht, hv', hg', -⟩ := h
            obtain ⟨h1, h2, h3⟩ := ih v g flag t₀ v₀ g₀ r₀ hrec hrest hv hg
            rw [← ht, ← hv', ← hg']
            refine ⟨?_, h2, h3⟩
            rw [astReqFree, List.all_cons, Bool.and_eq_true]
            exact ⟨hhd, h1⟩

/-- An AST write-back of a require-free AST keeps the outputs require-free. -/
theorem setAstAt_free (out : List OutputItem) (idx : Nat) (a : Ast)
    (hout : out.all itemReqFree = true) (ha : astReqFree a = true) :
    (setAstAt out idx a).all itemReqFree = true := by
  induction out generalizing idx with
  | nil => rfl
  | cons it rest ih =>
      rw [List.all_cons, Bool.and_eq_true] at hout
      obtain ⟨hit, hrest⟩ := hout
      cases idx with
      | zero =>
          rw [setAstAt, List.all_cons, Bool.and_eq_true]
          refine ⟨?_, hrest⟩
          show astReqFree ((some a).getD _) = true
          exact ha
      | succ k =>
          rw [setAstAt, List.all_cons, Bool.and_eq_true]
          exact ⟨hit, ih k hrest⟩

/-- Import pruning keeps the module and the graph require-free. -/
theorem removeUnusedImports_free (value : Module) (idx : Nat) (g : Graph)
    (v' : Module) (g' : Graph) (r : Bool)
    (h : removeUnusedImports value idx g = .ok (v', g', r))
    (hv : moduleReqFree value = true) (hg : graphReqFree g = true) :
    moduleReqFree v' = true ∧ graphReqFree g' = true := by
  obtain ⟨item, ast, t, v₀, g₀, hitem, hast, hrem, heq⟩ :=
    removeUnusedImports_ok value idx g (v', g', r) h
  simp only [Prod.mk.injEq] at heq
  obtain ⟨hv', hg', -⟩ := heq
  subst hv'
  subst hg'
  have hifree : itemReqFree item = true :=
    List.all_eq_true.mp hv item (List.get?_mem hitem)
  have hafree : astReqFree ast = true := by
    unfold itemReqFree at hifree
    rw [hast] at hifree
    exact hifree
  obtain ⟨htf, hv₀, hg₀⟩ := removeImportsAst_allfree (unusedImportsOf ast) ast value g
    (!(unusedImportsOf ast).isEmpty) t v₀ g' r hrem hafree hv hg
  refine ⟨?_, hg₀⟩
  have hout : v₀.output = value.output :=
    (removeImportsAst_vframe (unusedImportsOf ast) ast value g
      (!(unusedImportsOf ast).isEmpty) t v₀ g' r hrem).2
  show (setAstAt v₀.output idx t).all itemReqFree = true
  rw [hout]
  exact setAstAt_free value.output idx t hv htf

/-! ### A successful run on a require-free graph reaches a pass-fixed graph -/

/-- From a pass-fixed require-free state, the output loop only returns pass-fixed
require-free states. -/
theorem shakeOutputs_passfixed (R : Graph → Except ShakeErr Graph)
    (HR : ∀ a b, graphReqFree a = true → R a = .ok b →
      graphReqFree b = true ∧ PassFixed b) :
    ∀ (rem idx : Nat) (v : Module) (g k : Graph),
      moduleReqFree v = true → graphReqFree g = true → PassFixed g →
      (graphGet g v.path = some v ∨ graphGet g v.path = none) →
      shakeOutputs R rem idx v g = .ok k → graphReqFree k = true ∧ PassFixed k := by
  intro rem
  induction rem with
  | zero =>
      intro idx v g k hvf hgf hpf hv h
      rw [shakeOutputs] at h
      simp only [Except.ok.injEq] at h
      subst h
      exact ⟨hgf, hpf⟩
  | succ rem ih =>
      intro idx v g k hvf hgf hpf hv h
      rw [shakeOutputs] at h
      split at h
      · exact absurd h (by simp)
      next v₁ g₁ removed hcall =>
        have hfree₁ := removeUnusedImports_free v idx g v₁ g₁ removed hcall hvf hgf
        rcases hv with hv | hv
        · -- the loop object is the map's entry: step-fixedness pins the step
          have hidx := removeUnusedImports_idx v idx g (v₁, g₁, removed) hcall
          have hfix := (hpf.2 v.path v hv).2 idx hidx
          have heq : v₁ = v ∧ g₁ = g ∧ removed = false := by
            have := hfix.symm.trans hcall
            simp only [Except.ok.injEq, Prod.mk.injEq] at this
            exact ⟨this.1.symm, this.2.1.symm, this.2.2.symm⟩
          obtain ⟨rfl, rfl, rfl⟩ := heq
          simp only [Bool.false_eq_true, if_false] at h
          rw [graphSync_self g₁ v₁ hv] at h
          exact ih (idx + 1) v₁ g₁ k hvf hgf hpf (Or.inl hv) h
        · -- detached object
          cases removed with
          | false =>
              obtain ⟨rfl, rfl⟩ := removeUnusedImports_false v idx g v₁ g₁ hcall
              simp only [Bool.false_eq_true, if_false] at h
              rw [graphSync_none g₁ v₁ hv] at h
              exact ih (idx + 1) v₁ g₁ k hvf hgf hpf (Or.inr hv) h
          | true =>
              simp only [if_true] at h
              split at h
              · exact absurd h (by simp)
              next g₂ hrec =>
                have hsf : graphReqFree (graphSync g₁ v₁) = true :=
                  graphSync_free g₁ v₁ hfree₁.2 hfree₁.1
                obtain ⟨hg₂f, hpf₂⟩ := HR _ _ hsf hrec
                exact ih (idx + 1) _ g₂ k
                  (refresh_free g₂ v₁ hg₂f hfree₁.1) hg₂f hpf₂ (refresh_sound g₂ v₁) h

/-- From a pass-fixed require-free state, the module loop only returns pass-fixed
require-free states. -/
theorem shakeModules_passfixed (R : Graph → Except ShakeErr Graph)
    (HR : ∀ a b, graphReqFree a = true → R a = .ok b →
      graphReqFree b = true ∧ PassFixed b) :
    ∀ (rest : List String) (g k : Graph), graphReqFree g = true → PassFixed g →
      shakeModules R rest g = .ok k → graphReqFree k = true ∧ PassFixed k := by
  intro rest
  induction rest with
  | nil =>
      intro g k hgf hpf h
      rw [shakeModules] at h
      simp only [Except.ok.injEq] at h
      subst h
      exact ⟨hgf, hpf⟩
  | cons p rest ih =>
      intro g k hgf hpf h
      rw [shakeModules] at h
      cases hget : graphGet g p with
      | none =>
          rw [hget] at h
          exact ih g k hgf hpf h
      | some value =>
          have hvp : value.path = p := graphGet_path g p value hget
          have hsfv := hpf.2 p value hget
          have hts : treeShakeExports g p value = .ok value := by
            rw [← hvp]; exact hsfv.1
          have hgetv : graphGet g value.path = some value := by rw [hvp]; exact hget
          have hvf : moduleReqFree value = true :=
            graphReqFree_mem g hgf value (graphGet_mem g p value hget)
          simp only [hget, hts, graphSet_self g value hgetv] at h
          split at h
          · exact absurd h (by simp)
          next g₃ hout =>
            obtain ⟨hg₃f, hpf₃⟩ := shakeOutputs_passfixed R HR value.output.length 0
              value g g₃ hvf hgf hpf (Or.inl hgetv) hout
            exact ih g₃ k hg₃f hpf₃ h

/-- Every run of the output loop either changes nothing and reports `false` at
every inspected index, or passes through a recursive call and ends pass-fixed. -/
theorem shakeOutputs_cases (R : Graph → Except ShakeErr Graph)
    (HR : ∀ a b, graphReqFree a = true → R a = .ok b →
      graphReqFree b = true ∧ PassFixed b) :
    ∀ (rem idx : Nat) (v : Module) (g k : Graph),
      moduleReqFree v = true → graphReqFree g = true →
      (graphGet g v.path = some v ∨ graphGet g v.path = none) →
      shakeOutputs R rem idx v g = .ok k →
      (k = g ∧ ∀ j, idx ≤ j → j < idx + rem →
        removeUnusedImports v j g = .ok (v, g, false)) ∨
      (graphReqFree k = true ∧ PassFixed k) := by
  intro rem
  induction rem with
  | zero =>
      intro idx v g k hvf hgf hv h
      rw [shakeOutputs] at h
      simp only [Except.ok.injEq] at h
      subst h
      exact Or.inl ⟨rfl, fun j h1 h2 => absurd h2 (by omega)⟩
  | succ rem ih =>
      intro idx v g k hvf hgf hv h
      rw [shakeOutputs] at h
      split at h
      · exact absurd h (by simp)
      next v₁ g₁ removed hcall =>
        have hfree₁ := removeUnusedImports_free v idx g v₁ g₁ removed hcall hvf hgf
        cases removed with
        | false =>
            obtain ⟨rfl, rfl⟩ := removeUnusedImports_false v idx g v₁ g₁ hcall
            simp only [Bool.false_eq_true, if_false] at h
            have hsync : graphSync g₁ v₁ = g₁ := by
              rcases hv with hv | hv
              · exact graphSync_self g₁ v₁ hv
              · exact graphSync_none g₁ v₁ hv
            rw [hsync] at h
            rcases ih (idx + 1) v₁ g₁ k hvf hgf hv h with ⟨rfl, hall⟩ | hpf
            · refine Or.inl ⟨rfl, fun j h1 h2 => ?_⟩
              rcases Nat.eq_or_lt_of_le h1 with rfl | hlt
              · exact hcall
              · exact hall j (by omega) (by omega)
            · exact Or.inr hpf
        | true =>
            simp only [if_true] at h
            split at h
            · exact absurd h (by simp)
            next g₂ hrec =>
              have hsf : graphReqFree (graphSync g₁ v₁) = true :=
                graphSync_free g₁ v₁ hfree₁.2 hfree₁.1
              obtain ⟨hg₂f, hpf₂⟩ := HR _ _ hsf hrec
              exact Or.inr (shakeOutputs_passfixed R HR rem (idx + 1) _ g₂ k
                (refresh_free g₂ v₁ hg₂f hfree₁.1) hg₂f hpf₂ (refresh_sound g₂ v₁) h)

/-- Loop invariant of the module loop: starting from a collect-fresh require-free graph
in which every already-processed module is step-fixed, a successful run ends in a
pass-fixed require-free graph. -/
theorem shakeModules_inv (R : Graph → Except ShakeErr Graph)
    (HR : ∀ a b, graphReqFree a = true → R a = .ok b →
      graphReqFree b = true ∧ PassFixed b) :
    ∀ (rest : List String) (g k : Graph),
      graphReqFree g = true →
      collectAll g = .ok g →
      (∀ p m, graphGet g p = some m → p ∉ rest → StepFixed g m) →
      shakeModules R rest g = .ok k → graphReqFree k = true ∧ PassFixed k := by
  intro rest
  induction rest with
  | nil =>
      intro g k hgf hcol hfix h
      rw [shakeModules] at h
      simp only [Except.ok.injEq] at h
      subst h
      exact ⟨hgf, hcol, fun p m hget => hfix p m hget (List.not_mem_nil p)⟩
  | cons p rest ih =>
      intro g k hgf hcol hfix h
      rw [shakeModules] at h
      cases hget : graphGet g p with
      | none =>
          rw [hget] at h
          refine ih g k hgf hcol ?_ h
          intro p' m hget' hnotin
          by_cases hp : p' = p
          · subst hp
            rw [hget] at hget'
            exact absurd hget' (by simp)
          · refine hfix p' m hget' ?_
            intro hmem
            rcases List.mem_cons.mp hmem with h1 | h1
            · exact hp h1
            · exact hnotin h1
      | some value =>
          have hvp : value.path = p := graphGet_path g p value hget
          have hvf : moduleReqFree value = true :=
            graphReqFree_mem g hgf value (graphGet_mem g p value hget)
          cases hts : treeShakeExports g p value with
          | error e =>
              simp only [hget, hts] at h
              exact absurd h (by simp)
          | ok value' =>
              simp only [hget, hts] at h
              split at h
              · exact absurd h (by simp)
              next g₂ hout =>
                have hfields := treeShakeExports_fields g p value value' hts
                have hv'f : moduleReqFree value' = true :=
                  treeShakeExports_free g p value value' hts hvf
                have hgsf : graphReqFree (graphSet g value') = true :=
                  graphSet_free g value' hgf hv'f
                have hget₂ : graphGet (graphSet g value') p = some value' := by
                  rw [graphGet_graphSet]
                  rw [if_pos (by rw [hfields.1, hvp])]
                  rw [hget]
                  rfl
                have hv : graphGet (graphSet g value') value'.path = some value' := by
                  rw [hfields.1, hvp]
                  exact hget₂
                rcases shakeOutputs_cases R HR value'.output.length 0 value'
                    (graphSet g value') g₂ hv'f hgsf (Or.inl hv) hout with
                  ⟨rfl, hall⟩ | ⟨hg₂f, hpf₂⟩
                · refine ih (graphSet g value') k hgsf
                    (collectAll_fix_graphSet_pruned g p value value' hvf hcol hget hts)
                    ?_ h
                  intro p' m hget' hnotin
                  by_cases hp : p' = p
                  · rw [hp] at hget'
                    rw [hget₂] at hget'
                    simp only [Option.some.injEq] at hget'
                    subst hget'
                    constructor
                    · rw [hfields.1, hvp]
                      exact treeShakeExports_step_idem g p value value' hget hts
                    · intro idx hidx
                      exact hall idx (Nat.zero_le idx) (by omega)
                  · have hgp' : graphGet g p' = some m := by
                      rw [graphGet_graphSet] at hget'
                      rw [if_neg (by rw [hfields.1, hvp]; exact hp)] at hget'
                      exact hget'
                    have hsf : StepFixed g m := by
                      refine hfix p' m hgp' ?_
                      intro hmem
                      rcases List.mem_cons.mp hmem with h1 | h1
                      · exact hp h1
                      · exact hnotin h1
                    exact stepFixed_graphSet_pruned g p value value' hget hts m hsf
                · exact shakeModules_passfixed R HR rest g₂ k hg₂f hpf₂ h

/-- Every successful run of `treeShakeAll` on a require-free graph ends in a pass-fixed
require-free graph. -/
theorem treeShakeAll_passfixed :
    ∀ (fuel : Nat) (g k : Graph), graphReqFree g = true →
      treeShakeAll fuel g = .ok k → graphReqFree k = true ∧ PassFixed k := by
  intro fuel
  induction fuel with
  | zero =>
      intro g k hgf h
      rw [treeShakeAll] at h
      exact absurd h (by simp)
  | succ fuel ih =>
      intro g k hgf h
      cases hcol : collectAll g with
      | error e =>
          simp only [treeShakeAll, hcol] at h
          exact absurd h (by simp)
      | ok g₀ =>
          simp only [treeShakeAll, hcol] at h
          refine shakeModules_inv (treeShakeAll fuel)
            (fun a b haf hab => ih a b haf hab)
            (g₀.map Module.path) g₀ k (collectAll_free g g₀ hcol hgf)
            (collectAll_idem g g₀ hcol) ?_ h
          intro p m hget hnotin
          exact absurd (graphGet_mem_paths g₀ p m hget) hnotin

/-- C6 counterexample: the engine is not idempotent.  On `requireExportGraph` —
`/p` holding `export const a = require('./b');` with `a` imported by nobody — the
first run completes and keeps `/b`'s `export function f` alive through the cached
`cjs` record, but the second run re-collects the pruned tree, finds no `require`,
and removes that export declaration: the second run is not a no-op. -/
theorem second_run_removes_export_cex :
    treeShakeAll 1 requireExportGraph = .ok requireExportG1 ∧
    treeShakeAll 1 requireExportG1 = .ok requireExportG2 ∧
    requireExportG2 ≠ requireExportG1 ∧
    (requireExportG1.map (fun m => m.output.map (fun o => o.data.ast)))
      = [[some []], [some [.exportFun "f" [] []]]] ∧
    (requireExportG2.map (fun m => m.output.map (fun o => o.data.ast)))
      = [[some []], [some []]] := by
  decide

/-- C6 (amended): the engine is idempotent exactly where export declarations are free
of `require(...)` calls.  On a graph none of whose export declarations contains a
`require(...)` call, every graph `treeShakeAll` returns is a fixed point: running the
engine again (with any recursion budget) returns it unchanged.  Without that proviso
the claim is false — pruning an export declaration that carries a `require` call leaves
a stale `cjs` record, and the second run's re-collection then removes further export
declarations (see the counterexample). -/
theorem treeShakeAll_requirefree_idempotent (fuel fuel₂ : Nat) (g g' : Graph)
    (hfree : graphReqFree g = true) (h : treeShakeAll fuel g = .ok g') :
    treeShakeAll (fuel₂ + 1) g' = .ok g' :=
  treeShakeAll_second_run g' (treeShakeAll_passfixed fuel g g' hfree h).2 fuel₂

/-- Witness for `treeShakeAll_requirefree_idempotent` at a concrete run. -/
theorem treeShakeAll_requirefree_idempotent_witness :
    graphReqFree [idemModule] = true ∧
    treeShakeAll 2 [idemModule] = .ok [idemModuleShaken] ∧
      treeShakeAll 1 [idemModuleShaken] = .ok [idemModuleShaken] :=
  ⟨by decide, by decide,
    treeShakeAll_requirefree_idempotent 2 0 [idemModule] [idemModuleShaken]
      (by decide) (by decide)⟩

end ExpoSerializer
